import Mathlib

/-!
Verification development for the schema-driven binary codec of
`gta_sa_parser` (files `parsers/schema_parser.py` and `parsers/__init__.py`).

The Python code compiles a JSON schema into a `construct` codec tree and
uses it to decode byte streams into structured values and encode them back.
We shallowly embed:

* JSON schema documents (`Json`),
* the compiled codec tree (`Codec`), mirroring exactly the `construct`
  combinators the source instantiates (`Struct`, `Array`, `GreedyRange`,
  `Bytes`, `PaddedString`, `BytesInteger`, the integer/float `FormatField`s,
  and the three adapters `BitFieldAdapter`, `ScaleAdapter`, `BoolBitAdapter`),
* decoded values (`Value`), Python-side, with `vmap true` for
  `construct.Container` results (struct decode) and `vmap false` for plain
  `dict` results (bitfield decode), plus `vother` standing for arbitrary
  foreign Python objects that only the serializer ever sees,
* the recursive schema compiler `build_struct_from_schema`,
* the decode / encode engines (`decodeD` / `encodeD`), fuel-indexed: every
  recursion step consumes one unit of fuel, and exhausted fuel yields `none`.
  A `some` result at any fuel is the (unique) result the Python code
  produces when it terminates.

Machine integers are modelled as `Nat` / `Int` (Python ints are unbounded);
bytes are `Nat`s with the well-formedness predicate `validBytes` (`< 256`).
Python `x & (2^w - 1)` on an `int` is modelled as `Int.emod x (2^w)`
(extensionally equal, incl. negatives: Python `&` is two's-complement and
`%` is floor-mod), `x << s` as `x * 2^s` / `<<<`, `|` as `Nat.lor`.
Floating point is not interpreted: `Float32l`/`Float64l` fields decode to
`vfloat bits` carrying the raw little-endian bit pattern (the Python float
round-trips those bits except for NaN payload edge cases); `ScaleAdapter`
arithmetic, which the schema applies to integer fields, is modelled exactly
with `Rat` (Python uses binary floats; on every quantity the specification
mentions the two agree).
-/

/-- JSON documents, the shape of schema files (`json.load` output).
`jnum` carries non-integral numbers as exact rationals. -/
inductive Json where
  | jnull : Json
  | jbool (b : Bool) : Json
  | jint (n : Int) : Json
  | jnum (q : Rat) : Json
  | jstr (s : String) : Json
  | jarr (elems : List Json) : Json
  | jobj (fields : List (String × Json)) : Json

namespace Json

/-- `dict.get(key)` on a JSON object: first binding wins (schema objects
coming from `json.load` have unique keys). Non-objects have no keys. -/
def getField : Json → String → Option Json
  | .jobj fields, k => go fields k
  | _, _ => none
where go : List (String × Json) → String → Option Json
  | [], _ => none
  | (n, v) :: rest, k => if n = k then some v else go rest k

/-- `dict.get(key, default)`. -/
def getD (j : Json) (k : String) (dflt : Json) : Json :=
  (j.getField k).getD dflt

/-- Python truthiness of a JSON value (used for `schema.get("until_eof", False)`). -/
def truthy : Json → Bool
  | .jnull => false
  | .jbool b => b
  | .jint n => n ≠ 0
  | .jnum q => q ≠ 0
  | .jstr s => s ≠ ""
  | .jarr xs => !xs.isEmpty
  | .jobj fs => !fs.isEmpty

/-- A JSON value used where Python expects an `int`: Python `bool` is an
`int` subclass (`True == 1`, `False == 0`). -/
def asInt : Json → Option Int
  | .jint n => some n
  | .jbool b => some (if b then 1 else 0)
  | _ => none

/-- A JSON value used where Python expects a number (`scale`). -/
def asRat : Json → Option Rat
  | .jint n => some (n : Rat)
  | .jnum q => some q
  | .jbool b => some (if b then 1 else 0)
  | _ => none

end Json

/-- Decoded values (Python side).  `vmap true` is a `construct.Container`
(struct decode result), `vmap false` a plain `dict` (bitfield decode
result) — `to_serializable` treats the two differently.  `vfloat bits` is a
Python float carrying the raw encoded bit pattern (uninterpreted).
`vother s` stands for any foreign Python object with `str()` image `s`. -/
inductive Value where
  | vint (i : Int) : Value
  | vbool (b : Bool) : Value
  | vrat (q : Rat) : Value
  | vfloat (bits : Nat) : Value
  | vstr (s : String) : Value
  | vbytes (bs : List Nat) : Value
  | vmap (container : Bool) (fields : List (String × Value)) : Value
  | vlist (elems : List Value) : Value
  | vother (s : String) : Value

namespace Value

/-- Association-list lookup, first binding wins.  Decode contexts are built
by prepending, so the first binding is the most recent one — exactly the
overwrite semantics of `construct.Container` (a `dict`). -/
def lookupStr : List (String × Value) → String → Option Value
  | [], _ => none
  | (n, v) :: rest, k => if n = k then some v else lookupStr rest k

/-- `obj[name]` where Python expects a mapping; any non-mapping raises
(`TypeError` / `KeyError`), modelled as `none`. -/
def getItem : Value → String → Option Value
  | .vmap _ fields, k => lookupStr fields k
  | _, _ => none

/-- Python truthiness (`if obj[name]:` in `BitFieldAdapter._encode`,
`1 if obj else 0` in `BoolBitAdapter._encode`).  The only unfaithful corner
is `vfloat`: bit pattern `-0.0` is truthy here but falsy in Python —
unreachable from any decoded value the claims touch. -/
def truthy : Value → Bool
  | .vint i => i ≠ 0
  | .vbool b => b
  | .vrat q => q ≠ 0
  | .vfloat bits => bits ≠ 0
  | .vstr s => s ≠ ""
  | .vbytes bs => bs ≠ []
  | .vmap _ fs => !fs.isEmpty
  | .vlist xs => !xs.isEmpty
  | .vother _ => true

/-- A value used where Python expects an `int` (bit masking, packing):
ints and bools work, everything else raises. -/
def asInt : Value → Option Int
  | .vint i => some i
  | .vbool b => some (if b then 1 else 0)
  | _ => none

end Value

/-- Decode/encode context: the field bindings of the innermost open
`construct` scope, most recent first, with `"_"` bound to the parent
scope's map (exactly how `construct` chains `Container(_ = context)`). -/
abbrev Ctx := List (String × Value)

/-! ## Byte-level primitives mirroring `construct`'s stream I/O -/

/-- All entries are bytes. -/
def validBytes (bs : List Nat) : Prop := ∀ b ∈ bs, b < 256

instance : DecidablePred validBytes := fun bs =>
  inferInstanceAs (Decidable (∀ b ∈ bs, b < 256))

/-- Little-endian value of a byte list (`struct.unpack("<..")`,
`int.from_bytes(_, "little")`). -/
def leNat : List Nat → Nat
  | [] => 0
  | b :: rest => b + 256 * leNat rest

/-- Little-endian encoding of `v` on `w` bytes. -/
def leBytes : Nat → Nat → List Nat
  | 0, _ => []
  | w + 1, v => (v % 256) :: leBytes w (v / 256)

/-- Big-endian value of a byte list: what
`construct.BytesInteger(n, swapped=False, signed=False)` parses. -/
def beNat (bs : List Nat) : Nat := leNat bs.reverse

/-- Big-endian encoding of `v` on `w` bytes (`BytesInteger` build). -/
def beBytes (w : Nat) (v : Nat) : List Nat := (leBytes w v).reverse

/-- Lowercase hex digit. -/
def hexDigit (n : Nat) : Char :=
  if n < 10 then Char.ofNat (48 + n) else Char.ofNat (87 + n)

/-- `bytes.hex()`: two lowercase hex digits per byte. -/
def bytesHex (bs : List Nat) : String :=
  String.mk (bs.foldr (fun b acc => hexDigit (b / 16) :: hexDigit (b % 16) :: acc) [])

/-! ## The compiled codec tree

Each constructor mirrors exactly the `construct` object the corresponding
branch of `SchemaParser.build_struct_from_schema` instantiates. -/

/-- Fixed-width numeric primitives (`construct` `FormatField`s, all
little-endian, as in `TYPE_MAPPING`). -/
inductive PrimK where
  | pint (nbytes : Nat) (signed : Bool) : PrimK
  | pflt (nbytes : Nat) : PrimK
  deriving DecidableEq, Repr

/-- Compiled codec tree. -/
inductive Codec where
  /-- `construct.Struct(**fields)` (field order preserved). -/
  | cstruct (fields : List (String × Codec)) : Codec
  /-- `construct.Array(count, elem)` with a literal (Python `int`) count. -/
  | carrayLit (count : Int) (elem : Codec) : Codec
  /-- `construct.Array(resolver, elem)` with a dot-path count resolved from
  the decode context at parse/build time (`_resolve_this_path`). -/
  | carrayPath (parts : List String) (elem : Codec) : Codec
  /-- `construct.GreedyRange(elem)` (`until_eof`). -/
  | cgreedy (elem : Codec) : Codec
  /-- `BoolBitAdapter(construct.Byte)` — the `"char"` schema type
  (bit position 0, the constructor default, is the only one the compiler
  ever produces). -/
  | cboolBit : Codec
  /-- `construct.Bytes(size)`. -/
  | cbytes (size : Nat) : Codec
  /-- `construct.PaddedString(length, encoding)`.  `length` is kept as the
  raw (possibly non-positive) integer the schema supplied: `construct` only
  validates it at parse time. -/
  | cstring (length : Int) (encoding : String) : Codec
  /-- `BitFieldAdapter(BytesInteger((size+7)//8, swapped=False, signed=False), flags)`.
  `bitFlags` is the compile-time `bit_flags` table: the flags that carry a
  `"bit"` key, stably sorted by ascending bit. -/
  | cbitfield (sizeBits : Int) (bitFlags : List (String × Int)) : Codec
  /-- A bare `TYPE_MAPPING` primitive. -/
  | cprim (p : PrimK) : Codec
  /-- `ScaleAdapter(prim, scale)`. -/
  | cscaled (p : PrimK) (scale : Rat) : Codec

/-- `SchemaParser.TYPE_MAPPING`, the static name → codec table. -/
def TYPE_MAPPING : List (String × PrimK) :=
  [ ("char", .pint 1 false),
    ("Int8ul", .pint 1 false), ("Int16ul", .pint 2 false),
    ("Int32ul", .pint 4 false), ("Int64ul", .pint 8 false),
    ("Int8sl", .pint 1 true), ("Int16sl", .pint 2 true),
    ("Int32sl", .pint 4 true), ("Int64sl", .pint 8 true),
    ("Float32l", .pflt 4), ("Float64l", .pflt 8),
    ("int8", .pint 1 true), ("uint8", .pint 1 false),
    ("int16", .pint 2 true), ("uint16", .pint 2 false),
    ("int32", .pint 4 true), ("uint32", .pint 4 false) ]

/-- Table lookup (`TYPE_MAPPING[schema_type]`). -/
def primLookup : List (String × PrimK) → String → Option PrimK
  | [], _ => none
  | (n, p) :: rest, k => if n = k then some p else primLookup rest k

/-- Python `path.split(".")` (in `_resolve_this_path`): split on every
dot, keeping empty segments; the empty string splits to `[""]`.
(`String.splitOn` matches this behaviour but does not kernel-reduce, so we
re-implement it structurally over the character list.) -/
def splitDots (s : String) : List String :=
  (go s.toList).map (fun cs => String.mk cs)
where
  go : List Char → List (List Char)
  | [] => [[]]
  | c :: rest =>
      if c = '.' then [] :: go rest
      else match go rest with
        | [] => [[c]]
        | seg :: segs => (c :: seg) :: segs


/-- Stable insertion sort by a boolean `le` (insert after existing equal
keys).  Python's `sorted` is a stable sort; a stable sort's output is
uniquely determined, so this computes exactly what
`sorted(..., key=lambda f: f["bit"])` computes. -/
def stableInsert {α : Type} (le : α → α → Bool) (x : α) : List α → List α
  | [] => [x]
  | y :: ys => if le y x then y :: stableInsert le x ys else x :: y :: ys

/-- Stable sort (see `stableInsert`). -/
def stableSort {α : Type} (le : α → α → Bool) : List α → List α
  | [] => []
  | x :: xs => stableInsert le x (stableSort le xs)

/-- Extracts the bitfield flag table from the schema's `"flags"` list:
keeps exactly the entries that have a `"bit"` key (the Python list
comprehension `[f for f in flags if "bit" in f]`).  Modelling caveats,
none reachable from the claims: a flag whose `"bit"` is not an int makes
Python's `sorted` raise `TypeError` at compile time (faithful: compile
error), while a flag without a string `"name"` only raises at decode time
in Python but is reported at compile time here. -/
def extractBitFlags : List Json → Except String (List (String × Int))
  | [] => .ok []
  | f :: rest => do
      let tail ← extractBitFlags rest
      match f.getField "bit" with
      | none => .ok tail
      | some bitJ =>
          match bitJ.asInt, f.getField "name" with
          | some b, some (.jstr n) => .ok ((n, b) :: tail)
          | some _, _ => .error "KeyError: 'name'"
          | none, _ => .error "TypeError: '<' not supported for bit"

/-- `fields[name] = codec` on the Python field dict: overwrite in place if
the name exists (keeping the first position), else append. -/
def insertField (fields : List (String × Codec)) (name : String) (c : Codec) :
    List (String × Codec) :=
  match fields with
  | [] => [(name, c)]
  | (n, c') :: rest =>
      if n = name then (n, c) :: rest else (n, c') :: insertField rest name c

/-- Coarse Python `str()` of a JSON value, for f-string error messages;
exact on strings and ints (the only shapes the claims exercise). -/
def jsonCoarse : Json → String
  | .jstr s => s
  | .jint n => toString n
  | .jbool b => if b then "True" else "False"
  | .jnull => "None"
  | .jnum _ => "<number>"
  | .jarr _ => "<list>"
  | .jobj _ => "<dict>"

mutual

/-- `SchemaParser.build_struct_from_schema`, fuel-indexed (the Python
function recurses on the schema tree; zero fuel yields a recursion-limit
error that Python would only hit on a self-referential schema, which JSON
cannot express).  `.error` models any exception escaping the compiler. -/
def build_struct_from_schema : Nat → Json → Except String Codec
  | 0, _ => .error "RecursionError"
  | fuel + 1, schema =>
      match schema.getD "type" (.jstr "struct") with
      | .jstr t =>
          -- the `if schema_type == ... / elif ...` chain
          if t = "struct" then
            match schema.getD "fields" (.jarr []) with
            | .jarr fs => (compileFieldList fuel fs []).map .cstruct
            | _ => .error "TypeError: fields is not a list"
          else if t = "array" then
            match schema.getField "elements" with
            | none => .error "KeyError: 'elements'"
            | some elemSchema =>
                match build_struct_from_schema fuel elemSchema with
                | .error e => .error e
                | .ok elem =>
                    match schema.getField "count" with
                    | some countJ =>
                        match countJ.asInt with
                        | some n => .ok (.carrayLit n elem)
                        | none =>
                            match countJ with
                            | .jstr s => .ok (.carrayPath (splitDots s) elem)
                            | _ => .error ("Unsupported count type: " ++
                                            jsonCoarse countJ)
                    | none =>
                        if (schema.getD "until_eof" (.jbool false)).truthy then
                          .ok (.cgreedy elem)
                        else
                          .error "Array must have 'count' or 'until_eof'"
          else if t = "char" then .ok .cboolBit
          else if t = "bytes" then
            match (schema.getD "size" (.jint 0)).asInt with
            | some n =>
                if n ≤ 0 then .error "Bytes must have a positive 'size'"
                else .ok (.cbytes n.toNat)
            | none =>
                match schema.getD "size" (.jint 0) with
                | .jnum q =>
                    -- Python compares floats fine; a positive non-integral
                    -- size only fails later, at parse time (not modelled).
                    if q ≤ 0 then .error "Bytes must have a positive 'size'"
                    else .error "non-integral size"
                | _ => .error "TypeError: '<=' not supported for size"
          else if t = "string" then
            match schema.getField "length" with
            | none => .error "String must have 'length'"
            | some .jnull => .error "String must have 'length'"
            | some lenJ =>
                match lenJ.asInt with
                | some n =>
                    match schema.getD "encoding" (.jstr "ascii") with
                    | .jstr enc => .ok (.cstring n enc)
                    | _ => .error "AttributeError: encoding"
                | none => .error "TypeError: length"
          else if t = "bitfield" then
            match (schema.getD "size" (.jint 16)).asInt with
            | none => .error "TypeError: size"
            | some sizeBits =>
                match schema.getD "flags" (.jarr []) with
                | .jarr flags =>
                    (extractBitFlags flags).map fun bitFlags =>
                      .cbitfield sizeBits
                        (stableSort (fun a b => a.2 ≤ b.2) bitFlags)
                | _ => .error "TypeError: flags"
          else
            match primLookup TYPE_MAPPING t with
            | some p =>
                match schema.getField "scale" with
                | none => .ok (.cprim p)
                | some .jnull => .ok (.cprim p)
                | some scaleJ =>
                    match scaleJ.asRat with
                    | some q => .ok (.cscaled p q)
                    -- a non-numeric scale compiles in Python and fails only
                    -- when the adapter first divides, at decode time
                    | none => .error "TypeError: scale"
            | none => .error ("Unknown type in schema: " ++ t)
      | other => .error ("Unknown type in schema: " ++ jsonCoarse other)

/-- The `for field in schema.get("fields", [])` loop of the struct branch:
each field bag needs a `"name"`, compiles recursively, and lands in the
field dict (later duplicates overwrite in place). -/
def compileFieldList : Nat → List Json → List (String × Codec) →
    Except String (List (String × Codec))
  | 0, _, _ => .error "RecursionError"
  | _ + 1, [], acc => .ok acc
  | fuel + 1, field :: rest, acc =>
      match field.getField "name" with
      | some (.jstr name) => do
          let c ← build_struct_from_schema fuel field
          compileFieldList fuel rest (insertField acc name c)
      | some _ => .error "TypeError: keywords must be strings"
      | none => .error "KeyError: 'name'"

end

/-- `SchemaParser.__init__`: the codec is compiled from the schema file's
`"structure"` entry. -/
def schemaToCodec (fuel : Nat) (schema : Json) : Except String Codec :=
  match schema.getField "structure" with
  | some s => build_struct_from_schema fuel s
  | none => .error "KeyError: 'structure'"

/-- `load_parsers_from_schemas` (`parsers/__init__.py`): try each schema
file; any exception is caught, logged and the schema skipped — the
surviving codecs are returned in order. -/
def load_parsers_from_schemas (fuel : Nat) (schemas : List Json) : List Codec :=
  schemas.filterMap fun s => (schemaToCodec fuel s).toOption

/-! ## Path resolution (`_resolve_this_path`) -/

/-- `reduce(operator.getitem, parts, ctx)`: successive `[]`-indexing from a
starting value; a missing key or indexing a non-mapping raises (`none`). -/
def resolveVal : Value → List String → Option Value
  | v, [] => some v
  | .vmap _ fields, p :: ps =>
      match Value.lookupStr fields p with
      | some w => resolveVal w ps
      | none => none
  | _, _ :: _ => none

/-- Resolution of a dot path against a decode context. -/
def resolveCtx (ctx : Ctx) (parts : List String) : Option Value :=
  resolveVal (.vmap true ctx) parts

/-! ## Primitive codecs (`construct.FormatField`, little-endian) -/

/-- Parse of a `TYPE_MAPPING` primitive (`struct.unpack` semantics). -/
def primDecode : PrimK → List Nat → Option (Value × List Nat)
  | .pint w signed, bs =>
      if bs.length < w then none
      else
        let raw := leNat (bs.take w)
        let i : Int :=
          if signed = true ∧ 2 ^ (8 * w - 1) ≤ raw then (raw : Int) - 2 ^ (8 * w)
          else (raw : Int)
        some (.vint i, bs.drop w)
  | .pflt w, bs =>
      if bs.length < w then none
      else some (.vfloat (leNat (bs.take w)), bs.drop w)

/-- Build of a `TYPE_MAPPING` primitive: `struct.pack` raises on a
non-int (for integer fields) or out-of-range value.  A Python int packed
into a float field would be converted — float conversion is not modelled
(unreachable from the claims). -/
def primEncode : PrimK → Value → Option (List Nat)
  | .pint w signed, v =>
      match v.asInt with
      | none => none
      | some i =>
          if signed = true then
            if -(2 ^ (8 * w - 1) : Int) ≤ i ∧ i < 2 ^ (8 * w - 1) then
              some (leBytes w (i.emod (2 ^ (8 * w))).toNat)
            else none
          else
            if 0 ≤ i ∧ i < 2 ^ (8 * w) then some (leBytes w i.toNat) else none
  | .pflt w, v =>
      match v with
      | .vfloat bits => if bits < 2 ^ (8 * w) then some (leBytes w bits) else none
      | _ => none

/-- `int(q)` on an exact rational: truncation toward zero (`Int.tdiv` by
the positive denominator). -/
def ratTrunc (q : Rat) : Int := q.num.tdiv q.den

/-- `bytes.rstrip(b"\x00")`: what `NullStripped` (inside
`PaddedString(_, "ascii")`) removes after the fixed-size read. -/
def dropTrailingZeros (bs : List Nat) : List Nat :=
  (bs.reverse.dropWhile (· == 0)).reverse

/-! ## The bitfield adapter (`BitFieldAdapter`) -/

/-- The end bit of the first flag's range: the next flag's start, or
`size_bits` when there is no next flag (the inline `match` of both adapter
loops, factored out). -/
def flagEnd (sizeBits : Int) : List (String × Int) → Int
  | [] => sizeBits
  | (_, b) :: _ => b

/-- `flagEnd` over `Nat` bit positions (for the claim-side extraction). -/
def flagEndN (widthBits : Nat) : List (String × Nat) → Nat
  | [] => widthBits
  | (_, b) :: _ => b

/-- The flag-extraction loop of `BitFieldAdapter._decode`, over the sorted
`bit_flags` table.  Per flag: `end` is the next flag's bit (or `size_bits`
for the last), `width = end - start`; width 1 decodes
`bool((value >> start) & 1)`, otherwise `(value >> start) & ((1 << width) - 1)`.
A negative width (mask `1 << width`) or negative start (shift) raises. -/
def decodeBitFlags (sizeBits : Int) (value : Nat) :
    List (String × Int) → Option (List (String × Value))
  | [] => some []
  | (name, start) :: rest =>
      let width := flagEnd sizeBits rest - start
      if width = 1 then
        if start < 0 then none
        else
          match decodeBitFlags sizeBits value rest with
          | some tail =>
              some ((name, .vbool (((value >>> start.toNat) &&& 1) == 1)) :: tail)
          | none => none
      else if width < 0 then none
      else if start < 0 then none
      else
        match decodeBitFlags sizeBits value rest with
        | some tail =>
            some ((name, .vint ((value >>> start.toNat) &&& (2 ^ width.toNat - 1) : Nat))
                   :: tail)
        | none => none

/-- The accumulation loop of `BitFieldAdapter._encode`: skip names absent
from `obj` (`if name not in obj: continue`); a truthy present value of a
width-1 flag ORs in `1 << start`; a wider flag ORs in
`(obj[name] & mask) << start` (`& mask` on a Python int is exactly
`emod 2^width`).  Non-mapping `obj`s are modelled as having no keys
(Python's `in`-based lookup can also raise on exotic non-mappings; no
claim reaches that corner). -/
def encodeBitFlags (sizeBits : Int) (obj : Value) :
    List (String × Int) → Nat → Option Nat
  | [], acc => some acc
  | (name, start) :: rest, acc =>
      match obj.getItem name with
      | none => encodeBitFlags sizeBits obj rest acc
      | some v =>
          let width := flagEnd sizeBits rest - start
          if width = 1 then
            if v.truthy then
              if start < 0 then none
              else encodeBitFlags sizeBits obj rest (acc ||| (1 <<< start.toNat))
            else encodeBitFlags sizeBits obj rest acc
          else if width < 0 then none
          else
            match v.asInt with
            | none => none
            | some iv =>
                if start < 0 then none
                else
                  encodeBitFlags sizeBits obj rest
                    (acc ||| ((iv.emod (2 ^ width.toNat)).toNat <<< start.toNat))

/-! ## The decode engine

Fuel-indexed: each recursion step consumes one unit; exhausted fuel is
`none`.  `construct` parses depth-first left-to-right with a per-struct
context `Container(_ = outer)` that receives each field right after it
parses (so later siblings can resolve dot-path counts). -/

mutual

/-- `codec.parse_stream`: decode one codec from the front of `bs` in
context `ctx`, returning the value and the remaining bytes. -/
def decodeD : Nat → Codec → Ctx → List Nat → Option (Value × List Nat)
  | 0, _, _, _ => none
  | fuel + 1, c, ctx, bs =>
      match c with
      | .cstruct fields =>
          match decodeFieldsD fuel fields [("_", .vmap true ctx)] bs with
          | some (pairs, rest) => some (.vmap true pairs, rest)
          | none => none
      | .carrayLit n e =>
          -- Array._parse: `if not 0 <= count: raise RangeError`
          if n < 0 then none
          else
            match decodeRepD fuel e n.toNat ctx bs with
            | some (vs, rest) => some (.vlist vs, rest)
            | none => none
      | .carrayPath parts e =>
          match resolveCtx ctx parts with
          | none => none  -- missing key / non-mapping step in the path
          | some cv =>
              match cv.asInt with
              | none => none  -- non-integer count: comparison/range raises
              | some n =>
                  if n < 0 then none
                  else
                    match decodeRepD fuel e n.toNat ctx bs with
                    | some (vs, rest) => some (.vlist vs, rest)
                    | none => none
      | .cgreedy e =>
          -- GreedyRange: parse elements until one fails, then rewind to
          -- the last success.  (A zero-byte element makes the Python loop
          -- diverge; here fuel runs out instead.)
          match greedyD fuel e ctx bs with
          | (vs, rest) => some (.vlist vs, rest)
      | .cboolBit =>
          -- Byte parses one byte; BoolBitAdapter: bool((value >> 0) & 1)
          match bs with
          | [] => none
          | b :: rest => some (.vbool (((b >>> 0) &&& 1) == 1), rest)
      | .cbytes n =>
          if bs.length < n then none
          else some (.vbytes (bs.take n), bs.drop n)
      | .cstring len enc =>
          -- PaddedString: fixed-size read, strip trailing pad, decode.
          -- Only "ascii" (the schema default) is modelled.
          if len < 0 then none
          else if enc = "ascii" then
            if bs.length < len.toNat then none
            else
              let data := dropTrailingZeros (bs.take len.toNat)
              if data.all (· < 128) then
                some (.vstr (String.mk (data.map Char.ofNat)), bs.drop len.toNat)
              else none
          else none
      | .cbitfield sizeBits flags =>
          -- size_bytes = (size_bits + 7) // 8, BytesInteger big-endian
          let szBytes := (sizeBits + 7).fdiv 8
          if szBytes < 0 then none
          else
            let k := szBytes.toNat
            if bs.length < k then none
            else
              match decodeBitFlags sizeBits (beNat (bs.take k)) flags with
              | some pairs => some (.vmap false pairs, bs.drop k)
              | none => none
      | .cprim p => primDecode p bs
      | .cscaled p scale =>
          -- ScaleAdapter._decode: obj / scale
          match primDecode p bs with
          | some (.vint i, rest) =>
              if scale = 0 then none  -- ZeroDivisionError
              else some (.vrat ((i : Rat) / scale), rest)
          | some _ => none  -- float base: FP division not modelled
          | none => none

/-- `Struct._parse`: fields decode in declared order; each decoded field is
added to the context (`context[name] = subobj`) before the next decodes. -/
def decodeFieldsD : Nat → List (String × Codec) → Ctx → List Nat →
    Option (List (String × Value) × List Nat)
  | 0, _, _, _ => none
  | _ + 1, [], _, bs => some ([], bs)
  | fuel + 1, (name, c) :: rest, ctx, bs =>
      match decodeD fuel c ctx bs with
      | none => none
      | some (v, bs') =>
          match decodeFieldsD fuel rest ((name, v) :: ctx) bs' with
          | some (pairs, bs'') => some ((name, v) :: pairs, bs'')
          | none => none

/-- `Array._parse`'s `for i in range(count)` loop (same context for every
element). -/
def decodeRepD : Nat → Codec → Nat → Ctx → List Nat →
    Option (List Value × List Nat)
  | 0, _, _, _, _ => none
  | _ + 1, _, 0, _, bs => some ([], bs)
  | fuel + 1, e, k + 1, ctx, bs =>
      match decodeD fuel e ctx bs with
      | none => none
      | some (v, bs') =>
          match decodeRepD fuel e k ctx bs' with
          | some (vs, bs'') => some (v :: vs, bs'')
          | none => none

/-- `GreedyRange._parse`: collect elements until one fails; never fails
itself. -/
def greedyD : Nat → Codec → Ctx → List Nat → List Value × List Nat
  | 0, _, _, bs => ([], bs)
  | fuel + 1, e, ctx, bs =>
      match decodeD fuel e ctx bs with
      | none => ([], bs)
      | some (v, bs') =>
          match greedyD fuel e ctx bs' with
          | (vs, rest) => (v :: vs, rest)

end

/-! ## The encode engine -/

mutual

/-- `codec.build`: encode `v` with codec `c` in context `ctx`. -/
def encodeD : Nat → Codec → Ctx → Value → Option (List Nat)
  | 0, _, _, _ => none
  | fuel + 1, c, ctx, v =>
      match c with
      | .cstruct fields => encodeFieldsD fuel fields [("_", .vmap true ctx)] v
      | .carrayLit n e =>
          -- Array._build: `if len(obj) != count: raise RangeError`
          match v with
          | .vlist items =>
              if (items.length : Int) = n then encodeRepD fuel e ctx items else none
          | _ => none
      | .carrayPath parts e =>
          match resolveCtx ctx parts with
          | none => none
          | some cv =>
              match cv.asInt with
              | none => none
              | some n =>
                  match v with
                  | .vlist items =>
                      if (items.length : Int) = n then encodeRepD fuel e ctx items
                      else none
                  | _ => none
      | .cgreedy e =>
          match v with
          | .vlist items => encodeRepD fuel e ctx items
          | _ => none
      | .cboolBit =>
          -- BoolBitAdapter._encode: (1 if obj else 0) << 0, packed by Byte
          some [if v.truthy then 1 else 0]
      | .cbytes n =>
          match v with
          | .vbytes data => if data.length = n then some data else none
          | .vint i =>
              -- Bytes._build converts a Python int via integer2bytes
              if 0 ≤ i ∧ i < (2 : Int) ^ (8 * n) then some (beBytes n i.toNat)
              else none
          | _ => none
      | .cstring len enc =>
          if enc = "ascii" then
            match v with
            | .vstr s =>
                let data := s.toList.map Char.toNat
                if data.all (· < 128) ∧ 0 ≤ len ∧ data.length ≤ len.toNat then
                  some (data ++ List.replicate (len.toNat - data.length) 0)
                else none
            | _ => none
          else none
      | .cbitfield sizeBits flags =>
          match encodeBitFlags sizeBits v flags 0 with
          | none => none
          | some value =>
              let szBytes := (sizeBits + 7).fdiv 8
              if szBytes < 0 then none
              else if value < 2 ^ (8 * szBytes.toNat) then
                some (beBytes szBytes.toNat value)
              else none  -- BytesInteger: value does not fit
      | .cprim p => primEncode p v
      | .cscaled p scale =>
          -- ScaleAdapter._encode: int(obj * scale)
          match v with
          | .vint i => primEncode p (.vint (ratTrunc ((i : Rat) * scale)))
          | .vrat q => primEncode p (.vint (ratTrunc (q * scale)))
          | .vbool b =>
              primEncode p (.vint (ratTrunc ((if b then (1 : Rat) else 0) * scale)))
          | _ => none

/-- `Struct._build`: pull each field by name (missing key raises), put it
into the context, then build it. -/
def encodeFieldsD : Nat → List (String × Codec) → Ctx → Value →
    Option (List Nat)
  | 0, _, _, _ => none
  | _ + 1, [], _, _ => some []
  | fuel + 1, (name, c) :: rest, ctx, obj =>
      match obj.getItem name with
      | none => none
      | some vi =>
          match encodeD fuel c ((name, vi) :: ctx) vi with
          | none => none
          | some out =>
              match encodeFieldsD fuel rest ((name, vi) :: ctx) obj with
              | some out2 => some (out ++ out2)
              | none => none

/-- Element loop shared by `Array._build` and `GreedyRange._build`
(building zero elements never recurses, hence needs no fuel). -/
def encodeRepD : Nat → Codec → Ctx → List Value → Option (List Nat)
  | _, _, _, [] => some []
  | 0, _, _, _ :: _ => none
  | fuel + 1, e, ctx, item :: items =>
      match encodeD fuel e ctx item with
      | none => none
      | some out =>
          match encodeRepD fuel e ctx items with
          | some out2 => some (out ++ out2)
          | none => none

end

/-! ## The value normalizer (`SchemaParser.to_serializable`) -/

/-- JSON-serializable Python values, the normalizer's output.  `nfloat`
carries a float's raw bits, uninterpreted (see the module comment). -/
inductive NormV where
  | nmap (fields : List (String × NormV)) : NormV
  | nlist (elems : List NormV) : NormV
  | nstr (s : String) : NormV
  | nint (i : Int) : NormV
  | nrat (q : Rat) : NormV
  | nbool (b : Bool) : NormV
  | nfloat (bits : Nat) : NormV

mutual

/-- The inner `container_to_dict` of `to_serializable`, clause by clause:
`construct.Container`s drop `_`-prefixed keys, plain dicts (bitfield
results) keep all keys, lists recurse, bytes become lowercase hex,
primitives pass through, and *anything* else falls back to `str(...)` —
this function is total. -/
def container_to_dict : Value → NormV
  | .vmap true fields => .nmap (containerFieldsToDict fields)
  | .vmap false fields => .nmap (dictFieldsToDict fields)
  | .vlist xs => .nlist (listToDict xs)
  | .vbytes bs => .nstr (bytesHex bs)
  | .vint i => .nint i
  | .vfloat bits => .nfloat bits
  | .vrat q => .nrat q
  | .vstr s => .nstr s
  | .vbool b => .nbool b
  | .vother s => .nstr s

/-- `{k: f(v) for k, v in container.items() if not k.startswith("_")}`. -/
def containerFieldsToDict : List (String × Value) → List (String × NormV)
  | [] => []
  | (k, v) :: rest =>
      if k.startsWith "_" then containerFieldsToDict rest
      else (k, container_to_dict v) :: containerFieldsToDict rest

/-- `{k: f(v) for k, v in container.items()}` (plain-dict branch). -/
def dictFieldsToDict : List (String × Value) → List (String × NormV)
  | [] => []
  | (k, v) :: rest => (k, container_to_dict v) :: dictFieldsToDict rest

/-- `[f(item) for item in container]`. -/
def listToDict : List Value → List NormV
  | [] => []
  | v :: rest => container_to_dict v :: listToDict rest

end

/-! ## Losslessness

`lossless c` singles out the codecs built only from non-lossy, non-scaled
nodes, for the byte-exact round-trip property:

* structs (with distinct field names, none shadowing the context link
  `"_"`), all three array forms, raw byte blocks, and non-float
  primitives round-trip exactly;
* excluded as lossy: `ScaleAdapter` (the spec itself calls scaling lossy),
  `char`/`BoolBitAdapter` (drops bits 1–7), `PaddedString` (strips
  padding), floats (NaN bit patterns), and bitfields whose flag table does
  not cover every stored bit exactly (uncovered bits are dropped on
  decode).  A lossless bitfield needs: a positive multiple-of-8 width,
  at least one flag, the first at bit 0, strictly ascending in-range
  bits (so the inferred widths tile `[0, size_bits)`), and distinct
  names (a duplicate name makes the decoded dict collapse two flags). -/

/-- Strictly ascending bit positions. -/
def strictAsc : List (String × Int) → Bool
  | [] => true
  | [_] => true
  | (_, b1) :: (n2, b2) :: rest => b1 < b2 && strictAsc ((n2, b2) :: rest)

/-- See the section comment. -/
def bitfieldLossless (sizeBits : Int) (flags : List (String × Int)) : Bool :=
  0 < sizeBits && sizeBits % 8 = 0 &&
  (match flags with
   | [] => false
   | (_, b) :: _ => b = 0) &&
  strictAsc flags &&
  flags.all (fun f => f.2 < sizeBits) &&
  (flags.map Prod.fst).Nodup

mutual

/-- See the section comment. -/
def lossless : Codec → Bool
  | .cstruct fields =>
      (fields.map Prod.fst).Nodup &&
      ("_" ∉ fields.map Prod.fst) &&
      losslessFields fields
  | .carrayLit _ e => lossless e
  | .carrayPath _ e => lossless e
  | .cgreedy e => lossless e
  | .cboolBit => false
  | .cbytes _ => true
  | .cstring _ _ => false
  | .cbitfield sizeBits flags => bitfieldLossless sizeBits flags
  | .cprim (.pint _ _) => true
  | .cprim (.pflt _) => false
  | .cscaled _ _ => false

/-- All fields lossless. -/
def losslessFields : List (String × Codec) → Bool
  | [] => true
  | (_, c) :: rest => lossless c && losslessFields rest

end

/-! ## Helper lemmas -/

/-- Python `(size_bits + 7) // 8` agrees with `Nat` ceiling division for a
non-negative bit width. -/
theorem fdiv8_toNat (n : Int) (h : 0 ≤ n) :
    ((n + 7).fdiv 8).toNat = (n.toNat + 7) / 8 := by
  have hn : n = (n.toNat : Int) := by omega
  rw [hn, Int.fdiv_eq_ediv _ (by norm_num)]
  have h7 : ((n.toNat : Int) + 7) = ((n.toNat + 7 : Nat) : Int) := by push_cast; ring
  rw [h7, show ((8 : Int)) = ((8 : Nat) : Int) from rfl, ← Int.ofNat_ediv]
  exact Int.toNat_ofNat _

/-- `containerFieldsToDict` is the filter-then-map comprehension of the
`construct.Container` branch. -/
theorem containerFieldsToDict_eq (fs : List (String × Value)) :
    containerFieldsToDict fs =
      (fs.filter fun p => !(p.1.startsWith "_")).map
        fun p => (p.1, container_to_dict p.2) := by
  induction fs with
  | nil => rfl
  | cons hd tl ih =>
      by_cases h : hd.1.startsWith "_" <;>
        simp [containerFieldsToDict, List.filter_cons, h, ih]

/-- `dictFieldsToDict` is the map comprehension of the plain-`dict` branch. -/
theorem dictFieldsToDict_eq (fs : List (String × Value)) :
    dictFieldsToDict fs = fs.map fun p => (p.1, container_to_dict p.2) := by
  induction fs with
  | nil => rfl
  | cons hd tl ih => simp [dictFieldsToDict, ih]

/-- `listToDict` is `List.map container_to_dict`. -/
theorem listToDict_eq (xs : List Value) :
    listToDict xs = xs.map container_to_dict := by
  induction xs with
  | nil => rfl
  | cons hd tl ih => simp [listToDict, ih]

/-! ## Claim C9 -/

/-- C9: the value normalizer is a total function — for every input value of
any shape it returns a result (it never raises): `Container` mappings
recurse dropping `_`-prefixed (reserved) keys, plain-dict mappings recurse
over all keys, sequences recurse elementwise, byte blobs become their
lowercase hex text, scalars pass through unchanged, and a value of any
other, unknown shape is converted to its textual `str(...)` fallback
rather than causing a failure. -/
theorem c9_normalizer_total_per_shape :
    (∀ fs, container_to_dict (.vmap true fs) =
        .nmap ((fs.filter fun p => !(p.1.startsWith "_")).map
                 fun p => (p.1, container_to_dict p.2))) ∧
    (∀ fs, container_to_dict (.vmap false fs) =
        .nmap (fs.map fun p => (p.1, container_to_dict p.2))) ∧
    (∀ xs, container_to_dict (.vlist xs) = .nlist (xs.map container_to_dict)) ∧
    (∀ bs, container_to_dict (.vbytes bs) = .nstr (bytesHex bs)) ∧
    (∀ i, container_to_dict (.vint i) = .nint i) ∧
    (∀ b, container_to_dict (.vbool b) = .nbool b) ∧
    (∀ q, container_to_dict (.vrat q) = .nrat q) ∧
    (∀ bits, container_to_dict (.vfloat bits) = .nfloat bits) ∧
    (∀ s, container_to_dict (.vstr s) = .nstr s) ∧
    (∀ s, container_to_dict (.vother s) = .nstr s) := by
  refine ⟨?_, ?_, ?_, ?_, ?_, ?_, ?_, ?_, ?_, ?_⟩ <;>
    intro x <;>
    simp [container_to_dict, containerFieldsToDict_eq, dictFieldsToDict_eq,
      listToDict_eq]

/-! ## Claim C10 -/

/-- C10: the `char` codec (`BoolBitAdapter` over one byte) decodes a byte
to the boolean value of its bit 0 (true iff odd), encodes `true` to byte 1
and `false` to byte 0, so encode-after-decode yields `b AND 1`; the byte is
preserved by the round trip exactly when no bit other than bit 0 is set
(`b AND 1 = b ↔ b < 2`). -/
theorem c10_char_codec (fuel b : Nat) (rest : List Nat) (ctx : Ctx)
    (hb : b < 256) :
    decodeD (fuel + 1) .cboolBit ctx (b :: rest) =
      some (.vbool (b.testBit 0), rest) ∧
    encodeD (fuel + 1) .cboolBit ctx (.vbool (b.testBit 0)) = some [b &&& 1] ∧
    encodeD (fuel + 1) .cboolBit ctx (.vbool true) = some [1] ∧
    encodeD (fuel + 1) .cboolBit ctx (.vbool false) = some [0] ∧
    (b &&& 1 = b ↔ b < 2) := by
  have hand : b &&& 1 = b % 2 := Nat.and_one_is_mod b
  have htb : b.testBit 0 = (b % 2 == 1) := by
    rw [Nat.testBit_zero]
    rcases Nat.mod_two_eq_zero_or_one b with h | h <;> simp [h]
  refine ⟨?_, ?_, ?_, ?_, ?_⟩
  · simp only [decodeD, Nat.shiftRight_zero, hand, htb]
  · simp only [encodeD, Value.truthy, htb, hand]
    rcases Nat.mod_two_eq_zero_or_one b with h | h <;> simp [h]
  · rfl
  · rfl
  · rw [hand]
    constructor
    · intro h
      have := Nat.mod_lt b (show 0 < 2 by norm_num)
      omega
    · intro h
      interval_cases b <;> rfl

/-- Witness for `c10_char_codec` at byte 7. -/
theorem c10_char_codec_witness :
    decodeD 1 .cboolBit [] [7] = some (.vbool ((7 : Nat).testBit 0), []) ∧
    encodeD 1 .cboolBit [] (.vbool ((7 : Nat).testBit 0)) = some [7 &&& 1] := by
  have h := c10_char_codec 0 7 [] [] (by decide)
  exact ⟨h.1, h.2.1⟩

/-! ## Claim C6 -/

/-- C6: decoding an array whose count is a dot-path reference fails (decode
error, `none`) whenever the path does not resolve in the decode context —
a missing key at any segment, indexing through a non-mapping, or a field
not yet decoded (absent from the context) — or resolves to a non-numeric
value; it never substitutes a default count of 0 or 1 (those would be
`some` results with 0 or 1 decoded elements). -/
theorem c6_dynamic_count_failure (fuel : Nat) (parts : List String)
    (e : Codec) (ctx : Ctx) (bs : List Nat)
    (h : resolveCtx ctx parts = none ∨
         ∃ v, resolveCtx ctx parts = some v ∧ v.asInt = none) :
    decodeD fuel (.carrayPath parts e) ctx bs = none := by
  cases fuel with
  | zero => rfl
  | succ fuel =>
      rcases h with h | ⟨v, hv, hvi⟩
      · simp [decodeD, h]
      · simp [decodeD, hv, hvi]

/-- Witness for `c6_dynamic_count_failure`: a path over an empty context
(missing key) and a path resolving to a non-numeric (string) value. -/
theorem c6_dynamic_count_failure_witness :
    decodeD 5 (.carrayPath ["num"] (.cprim (.pint 1 false))) [] [1, 2] = none ∧
    decodeD 5 (.carrayPath ["num"] (.cprim (.pint 1 false)))
        [("num", .vstr "two")] [1, 2] = none := by
  constructor
  · exact c6_dynamic_count_failure 5 ["num"] _ [] [1, 2] (Or.inl rfl)
  · exact c6_dynamic_count_failure 5 ["num"] _ [("num", .vstr "two")] [1, 2]
      (Or.inr ⟨.vstr "two", rfl, rfl⟩)

/-! ## Claim C3

The scenario schema's sorted flag table is `a@0, b@1, c@3` with inferred
widths `1, 2, 5` (each width is the next start minus this one): `b` has
width 2, not 1, so it decodes as the unsigned integer `(11 >> 1) & 3 = 1`,
not as the boolean `true` the claim (and its "a,b width 1 each"
parenthetical) predict.  (In Python `1 == True`, but the decoded value is
the `int` 1, and the stated subfield typing — boolean iff width 1 — makes
it an integer.) -/

/-- The §8 scenario schema: bitfield of width 8 with flags a\@0, b\@1, c\@3. -/
def c3schema : Json :=
  .jobj [("type", .jstr "bitfield"), ("size", .jint 8),
         ("flags", .jarr [
            .jobj [("name", .jstr "a"), ("bit", .jint 0)],
            .jobj [("name", .jstr "b"), ("bit", .jint 1)],
            .jobj [("name", .jstr "c"), ("bit", .jint 3)]])]

/-- C3 counterexample: decoding byte `0b00001011` (11) with the scenario
bitfield yields `b ↦ int 1` (width 2), not `b ↦ true`; the produced mapping
differs from the claimed `{a: true, b: true, c: 1}`. -/
theorem c3_counterexample :
    build_struct_from_schema 5 c3schema =
      .ok (.cbitfield 8 [("a", 0), ("b", 1), ("c", 3)]) ∧
    decodeD 5 (.cbitfield 8 [("a", 0), ("b", 1), ("c", 3)]) [] [11] =
      some (.vmap false [("a", .vbool true), ("b", .vint 1), ("c", .vint 1)], []) ∧
    (Value.vmap false [("a", .vbool true), ("b", .vint 1), ("c", .vint 1)] ≠
     Value.vmap false [("a", .vbool true), ("b", .vbool true), ("c", .vint 1)]) := by
  refine ⟨rfl, rfl, ?_⟩
  intro h
  injection h with _ h2
  injection h2 with _ h3
  injection h3 with h4 _
  injection h4 with _ h5
  cases h5

/-- C3 amended: the bitfield of width 8 with subfields a at bit 0, b at
bit 1, c at bit 3 has inferred widths 1, 2 and 5; decoding the single byte
`0b00001011` (11) yields `{a: true, b: 1, c: 1}` — `a` as a boolean
(width 1), `b` as the unsigned integer `(11 >> 1) & 0b11 = 1` (width 2)
and `c` as the unsigned integer `11 >> 3 = 1` (width 5). -/
theorem c3_amended :
    build_struct_from_schema 5 c3schema =
      .ok (.cbitfield 8 [("a", 0), ("b", 1), ("c", 3)]) ∧
    decodeD 5 (.cbitfield 8 [("a", 0), ("b", 1), ("c", 3)]) [] [11] =
      some (.vmap false [("a", .vbool ((11 >>> 0) &&& 1 == 1)),
                         ("b", .vint (((11 >>> 1) &&& (2 ^ 2 - 1) : Nat) : Int)),
                         ("c", .vint (((11 >>> 3) &&& (2 ^ 5 - 1) : Nat) : Int))], []) ∧
    ((11 >>> 0) &&& 1 == 1) = true ∧
    ((11 >>> 1) &&& (2 ^ 2 - 1) : Nat) = 1 ∧
    ((11 >>> 3) &&& (2 ^ 5 - 1) : Nat) = 1 := by
  exact ⟨rfl, rfl, rfl, rfl, rfl⟩

/-! ## Claim C4 -/

/-- C4 counterexample: encoding the empty mapping — which omits the
declared subfield `a` of an 8-bit bitfield — is *not* an encode error: it
succeeds, producing the zero byte.  (`BitFieldAdapter._encode` skips
missing names with `continue`.) -/
theorem c4_counterexample :
    encodeD 5 (.cbitfield 8 [("a", 0)]) [] (.vmap false []) = some [0] ∧
    encodeD 5 (.cbitfield 8 [("a", 0)]) [] (.vmap false []) ≠ none := by
  refine ⟨rfl, ?_⟩
  rw [show encodeD 5 (.cbitfield 8 [("a", 0)]) [] (.vmap false []) = some [0] from rfl]
  simp

/-- C4 amended: for every bitfield codec, a subfield name absent from the
input mapping is silently skipped — its bits default to 0; in particular a
mapping containing none of the declared names encodes successfully to the
all-zero byte string (no encode error is raised for missing flag keys). -/
theorem c4_amended (fuel sizeBitsN : Nat) (flags : List (String × Int))
    (m : Value) (ctx : Ctx) (name : String) (start : Int) (acc : Nat)
    (habsent : ∀ f ∈ flags, m.getItem f.1 = none)
    (hone : m.getItem name = none) :
    encodeBitFlags (sizeBitsN : Int) m ((name, start) :: flags) acc =
      encodeBitFlags (sizeBitsN : Int) m flags acc ∧
    encodeD (fuel + 1) (.cbitfield (sizeBitsN : Int) flags) ctx m =
      some (beBytes ((sizeBitsN + 7) / 8) 0) := by
  constructor
  · simp [encodeBitFlags, hone]
  · have hzero : ∀ fl, (∀ f ∈ fl, m.getItem f.1 = none) →
        encodeBitFlags (sizeBitsN : Int) m fl 0 = some 0 := by
      intro fl
      induction fl with
      | nil => intro _; rfl
      | cons hd tl ih =>
          intro h
          have h1 := h hd (by simp)
          have h2 : ∀ f ∈ tl, m.getItem f.1 = none := fun f hf => h f (by simp [hf])
          simp [encodeBitFlags, h1, ih h2]
    have hfd : (((sizeBitsN : Int) + 7).fdiv 8).toNat = (sizeBitsN + 7) / 8 := by
      have := fdiv8_toNat (sizeBitsN : Int) (by positivity)
      simpa using this
    have hnn : ¬ ((sizeBitsN : Int) + 7).fdiv 8 < 0 := by
      rw [Int.fdiv_eq_ediv _ (by norm_num)]
      have : (0 : Int) ≤ ((sizeBitsN : Int) + 7) / 8 :=
        Int.ediv_nonneg (by positivity) (by norm_num)
      omega
    simp only [encodeD, hzero flags habsent, hfd, hnn, if_false]
    simp [Nat.pos_pow_of_pos]

/-- Witness for `c4_amended`: the empty map omits the single flag `a` of an
8-bit bitfield, yet encodes to the zero byte. -/
theorem c4_amended_witness :
    encodeD 1 (.cbitfield ((8 : Nat) : Int) [("a", 0)]) [] (.vmap false []) =
      some (beBytes ((8 + 7) / 8) 0) := by
  exact (c4_amended 0 8 [("a", 0)] (.vmap false []) [] "zz" 0 0
    (by intro f hf; simp at hf; subst hf; rfl) rfl).2

/-! ## Claim C2

`build_bitfield_struct` wraps `BytesInteger(size_bytes, swapped=False,
signed=False)`, and unswapped `BytesInteger` parses **big-endian**; the
adapter's `int.from_bytes(obj, "little")` branch is dead code (the subcon
hands the adapter an already-parsed `int`).  So the claim's "unsigned
little-endian integer" is wrong for any multi-byte bitfield; everything
else in the claim (byte count, width inference, boolean iff width 1)
matches the code. -/

/-- C2 counterexample: a 16-bit bitfield with the single subfield `a` at
bit 0 (width 16) decodes the бytes `01 00` to `a = 256` — the big-endian
value — whereas the little-endian interpretation the claim specifies
would give `a = 1`. -/
theorem c2_counterexample :
    decodeD 5 (.cbitfield 16 [("a", 0)]) [] [1, 0] =
      some (.vmap false [("a", .vint 256)], []) ∧
    beNat [1, 0] = 256 ∧
    leNat [1, 0] = 1 ∧
    Value.vint 256 ≠ Value.vint 1 := by
  refine ⟨rfl, rfl, rfl, ?_⟩
  intro h
  injection h with h'
  cases h'

/-- Per-flag well-formedness of a (sorted) flag table: every start bit is
non-negative and no later than its subfield's end (the next flag's bit, or
`size_bits` for the last flag) — i.e. all inferred widths are
non-negative, so the extraction loop cannot raise. -/
def wfFlags (sizeBits : Int) : List (String × Int) → Bool
  | [] => true
  | (_, b) :: rest => 0 ≤ b && b ≤ flagEnd sizeBits rest && wfFlags sizeBits rest

/-- The subfield extraction claim C2 describes (its endianness amended,
see `c2_amended`): each subfield's width is the next subfield's start
minus its own (or `width_bits` minus its own for the last); width 1
extracts the boolean bit `start` of the integer, a wider subfield the
unsigned integer `value / 2^start mod 2^width`. -/
def specSubfields (widthBits : Nat) (value : Nat) :
    List (String × Nat) → List (String × Value)
  | [] => []
  | (name, start) :: rest =>
      let width := flagEndN widthBits rest - start
      (name,
        if width = 1 then Value.vbool (value.testBit start)
        else Value.vint ((value / 2 ^ start % 2 ^ width : Nat) : Int))
        :: specSubfields widthBits value rest

/-- The decode behaviour claim C2 describes, with "little-endian" amended
to big-endian: read `ceil(width_bits/8)` bytes, interpret them as an
unsigned **big-endian** integer, extract each subfield per
`specSubfields`. -/
def specBitfieldDecode (widthBits : Nat) (subfields : List (String × Nat))
    (bytes : List Nat) : List (String × Value) :=
  specSubfields widthBits (beNat (bytes.take ((widthBits + 7) / 8))) subfields

/-- `(v >> s) & 1 == 1` is `testBit`. -/
theorem and_one_beq_one_eq_testBit (v s : Nat) :
    (((v >>> s) &&& 1) == 1) = v.testBit s := by
  rw [Nat.testBit_to_div_mod, Nat.and_one_is_mod, Nat.shiftRight_eq_div_pow]
  rcases Nat.mod_two_eq_zero_or_one (v / 2 ^ s) with h | h <;> simp [h]

/-- A well-formed flag table has a non-negative first range end. -/
theorem wfFlags_end_nonneg (sizeBits : Int) (tl : List (String × Int))
    (hsz : 0 ≤ sizeBits) (hwf : wfFlags sizeBits tl = true) :
    0 ≤ flagEnd sizeBits tl := by
  cases tl with
  | nil => exact hsz
  | cons hd tl2 =>
      obtain ⟨n, b⟩ := hd
      simp only [wfFlags, Bool.and_eq_true, decide_eq_true_eq] at hwf
      exact hwf.1.1

/-- `flagEnd` commutes with the `Int → Nat` flag conversion. -/
theorem flagEnd_toNat (sizeBits : Int) (tl : List (String × Int)) :
    (flagEnd sizeBits tl).toNat =
      flagEndN sizeBits.toNat (tl.map fun f => (f.1, f.2.toNat)) := by
  cases tl with
  | nil => rfl
  | cons hd tl2 => rfl

/-- The extraction loop of `BitFieldAdapter._decode` computes exactly the
claimed subfield extraction (on well-formed flag tables). -/
theorem decodeBitFlags_eq_spec (sizeBits : Int) (value : Nat)
    (flags : List (String × Int)) (hsz : 0 ≤ sizeBits)
    (hwf : wfFlags sizeBits flags = true) :
    decodeBitFlags sizeBits value flags =
      some (specSubfields sizeBits.toNat value
              (flags.map fun f => (f.1, f.2.toNat))) := by
  induction flags with
  | nil => rfl
  | cons hd tl ih =>
      obtain ⟨name, start⟩ := hd
      simp only [wfFlags, Bool.and_eq_true, decide_eq_true_eq] at hwf
      obtain ⟨⟨hb0, hble⟩, hwtl⟩ := hwf
      have ihtl := ih hwtl
      have he0 : 0 ≤ flagEnd sizeBits tl := wfFlags_end_nonneg sizeBits tl hsz hwtl
      have hwn : (flagEnd sizeBits tl - start).toNat =
          (flagEnd sizeBits tl).toNat - start.toNat := by omega
      have hens := flagEnd_toNat sizeBits tl
      have hst : ¬ start < 0 := by omega
      by_cases h1 : flagEnd sizeBits tl - start = 1
      · have h1n : flagEndN sizeBits.toNat (tl.map fun f => (f.1, f.2.toNat)) -
            start.toNat = 1 := by omega
        simp only [decodeBitFlags, specSubfields, List.map, h1, if_true, hst,
          if_false, ihtl, h1n, and_one_beq_one_eq_testBit]
      · have h1n : ¬ (flagEndN sizeBits.toNat (tl.map fun f => (f.1, f.2.toNat)) -
            start.toNat = 1) := by omega
        have hwge : ¬ (flagEnd sizeBits tl - start < 0) := by omega
        simp only [decodeBitFlags, specSubfields, List.map, h1, if_false, hwge,
          hst, ihtl, h1n]
        rw [Nat.shiftRight_eq_div_pow, Nat.and_pow_two_sub_one_eq_mod, hwn, hens]

/-- C2 amended: for every bitfield codec of non-negative `width_bits` with
a well-formed flag table, decode reads `ceil(width_bits/8)` bytes,
interprets them as an unsigned **big-endian** integer (the claim said
little-endian; `BytesInteger(_, swapped=False)` is big-endian), and
extracts each subfield as a boolean when its inferred width is 1 and as an
unsigned integer when its width differs from 1. -/
theorem c2_amended (fuel : Nat) (sizeBits : Int) (flags : List (String × Int))
    (ctx : Ctx) (bs : List Nat) (hsz : 0 ≤ sizeBits)
    (hwf : wfFlags sizeBits flags = true)
    (hlen : (sizeBits.toNat + 7) / 8 ≤ bs.length) :
    decodeD (fuel + 1) (.cbitfield sizeBits flags) ctx bs =
      some (.vmap false
              (specBitfieldDecode sizeBits.toNat
                (flags.map fun f => (f.1, f.2.toNat)) bs),
            bs.drop ((sizeBits.toNat + 7) / 8)) := by
  have hfd : ((sizeBits + 7).fdiv 8).toNat = (sizeBits.toNat + 7) / 8 :=
    fdiv8_toNat sizeBits hsz
  have hnn : ¬ (sizeBits + 7).fdiv 8 < 0 := by
    rw [Int.fdiv_eq_ediv _ (by norm_num)]
    have : (0 : Int) ≤ (sizeBits + 7) / 8 := Int.ediv_nonneg (by omega) (by norm_num)
    omega
  have hlen' : ¬ (bs.length < ((sizeBits + 7).fdiv 8).toNat) := by
    rw [hfd]; omega
  simp only [decodeD, hnn, if_false, hfd, hlen', specBitfieldDecode,
    decodeBitFlags_eq_spec sizeBits (beNat (bs.take ((sizeBits.toNat + 7) / 8)))
      flags hsz hwf]
  rw [if_neg (by omega : ¬ bs.length < (sizeBits.toNat + 7) / 8)]

/-- Witness for `c2_amended`: the 16-bit bitfield `a@0, b@8` decoding
`01 02` — big-endian value `0x0102`, `a = 2`, `b = 1`. -/
theorem c2_amended_witness :
    decodeD 5 (.cbitfield 16 [("a", 0), ("b", 8)]) [] [1, 2] =
      some (.vmap false
              (specBitfieldDecode 16 [("a", 0), ("b", 8)] [1, 2]), []) ∧
    specBitfieldDecode 16 [("a", 0), ("b", 8)] [1, 2] =
      [("a", .vint 2), ("b", .vint 1)] := by
  constructor
  · exact c2_amended 4 16 [("a", 0), ("b", 8)] [] [1, 2] (by decide) (by decide)
      (by decide)
  · rfl

/-! ## Claim C7

The bytes half of the claim matches the code (`if size <= 0: raise`), but
the string half does not: `build_struct_from_schema` only rejects a
*missing* `length` (`if length is None`), then hands any integer straight
to `PaddedString`, so a zero or negative length is accepted at compile
time (a negative one fails later, at decode; zero simply reads nothing). -/

/-- C7 counterexample: a `string` node with the non-positive length 0
compiles successfully (no compile error), refuting "compiling a
FixedString node whose length is not a positive integer is a compile
error". -/
theorem c7_counterexample :
    build_struct_from_schema 5
        (.jobj [("type", .jstr "string"), ("length", .jint 0)]) =
      .ok (.cstring 0 "ascii") ∧
    ∀ e : String,
      build_struct_from_schema 5
          (.jobj [("type", .jstr "string"), ("length", .jint 0)]) ≠
        .error e := by
  refine ⟨rfl, ?_⟩
  intro e h
  rw [show build_struct_from_schema 5
        (.jobj [("type", .jstr "string"), ("length", .jint 0)]) =
      .ok (.cstring 0 "ascii") from rfl] at h
  exact Except.noConfusion h

/-- C7 amended: compiling a Bytes node whose integer `size` is not
positive is a compile error (naming the size requirement); compiling a
FixedString node with a *missing* `length` is a compile error — but any
*present* integer `length`, positive or not, compiles successfully (a
non-positive length is not rejected at compile time). -/
theorem c7_amended :
    (∀ (fuel : Nat) (schema : Json) (n : Int),
        schema.getD "type" (.jstr "struct") = .jstr "bytes" →
        (schema.getD "size" (.jint 0)).asInt = some n → n ≤ 0 →
        build_struct_from_schema (fuel + 1) schema =
          .error "Bytes must have a positive 'size'") ∧
    (∀ (fuel : Nat) (schema : Json),
        schema.getD "type" (.jstr "struct") = .jstr "string" →
        schema.getField "length" = none →
        build_struct_from_schema (fuel + 1) schema =
          .error "String must have 'length'") ∧
    (∀ (fuel : Nat) (schema : Json) (n : Int),
        schema.getD "type" (.jstr "struct") = .jstr "string" →
        schema.getField "length" = some (.jint n) →
        schema.getField "encoding" = none →
        build_struct_from_schema (fuel + 1) schema =
          .ok (.cstring n "ascii")) := by
  refine ⟨?_, ?_, ?_⟩
  · intro fuel schema n htype hsize hneg
    simp only [build_struct_from_schema, htype, hsize]
    rw [if_neg (by decide : ¬ ("bytes" = "struct")),
        if_neg (by decide : ¬ ("bytes" = "array")),
        if_neg (by decide : ¬ ("bytes" = "char"))]
    simp [hneg]
  · intro fuel schema htype hlen
    simp only [build_struct_from_schema, htype, hlen]
    rw [if_neg (by decide : ¬ ("string" = "struct")),
        if_neg (by decide : ¬ ("string" = "array")),
        if_neg (by decide : ¬ ("string" = "char")),
        if_neg (by decide : ¬ ("string" = "bytes"))]
    simp
  · intro fuel schema n htype hlen henc
    have henc' : schema.getD "encoding" (.jstr "ascii") = .jstr "ascii" := by
      simp [Json.getD, henc]
    simp only [build_struct_from_schema, htype, hlen, henc']
    rw [if_neg (by decide : ¬ ("string" = "struct")),
        if_neg (by decide : ¬ ("string" = "array")),
        if_neg (by decide : ¬ ("string" = "char")),
        if_neg (by decide : ¬ ("string" = "bytes"))]
    simp [Json.asInt]

/-- Witness for `c7_amended`: a bytes node with default (0) size errors; a
string node without `length` errors; a string node with `length: -3`
compiles. -/
theorem c7_amended_witness :
    build_struct_from_schema 1 (.jobj [("type", .jstr "bytes")]) =
      .error "Bytes must have a positive 'size'" ∧
    build_struct_from_schema 1 (.jobj [("type", .jstr "string")]) =
      .error "String must have 'length'" ∧
    build_struct_from_schema 1
        (.jobj [("type", .jstr "string"), ("length", .jint (-3))]) =
      .ok (.cstring (-3) "ascii") := by
  refine ⟨?_, ?_, ?_⟩
  · exact c7_amended.1 0 (.jobj [("type", .jstr "bytes")]) 0 rfl rfl (by norm_num)
  · exact c7_amended.2.1 0 (.jobj [("type", .jstr "string")]) rfl rfl
  · exact c7_amended.2.2 0
      (.jobj [("type", .jstr "string"), ("length", .jint (-3))]) (-3) rfl rfl rfl

/-! ## Claim C8 -/

/-- The type strings `build_struct_from_schema` recognizes: the six
structural kinds of its dispatch chain plus every `TYPE_MAPPING` name. -/
def isKnownType (t : String) : Bool :=
  t = "struct" || t = "array" || t = "char" || t = "bytes" || t = "string" ||
  t = "bitfield" || (primLookup TYPE_MAPPING t).isSome

/-- C8: compiling a schema node whose type string is unknown fails with a
compile error whose message names that offending type string (it is
literally `"Unknown type in schema: " ++ t`); and in a batch load, one
schema failing to compile (with any error) is skipped while every other
schema in the batch still loads, in order. -/
theorem c8_unknown_type_and_batch :
    (∀ (fuel : Nat) (schema : Json) (t : String),
        schema.getD "type" (.jstr "struct") = .jstr t →
        isKnownType t = false →
        build_struct_from_schema (fuel + 1) schema =
          .error ("Unknown type in schema: " ++ t)) ∧
    (∀ (fuel : Nat) (pre post : List Json) (bad : Json) (e : String),
        schemaToCodec fuel bad = .error e →
        load_parsers_from_schemas fuel (pre ++ bad :: post) =
          load_parsers_from_schemas fuel pre ++
          load_parsers_from_schemas fuel post) := by
  constructor
  · intro fuel schema t htype hunk
    simp only [isKnownType, Bool.or_eq_false_iff, decide_eq_false_iff_not] at hunk
    obtain ⟨⟨⟨⟨⟨⟨h1, h2⟩, h3⟩, h4⟩, h5⟩, h6⟩, h7⟩ := hunk
    have h7' : primLookup TYPE_MAPPING t = none := by
      cases hpl : primLookup TYPE_MAPPING t with
      | none => rfl
      | some p => rw [hpl] at h7; exact absurd h7 (by simp)
    simp only [build_struct_from_schema, htype]
    rw [if_neg h1, if_neg h2, if_neg h3, if_neg h4, if_neg h5, if_neg h6, h7']
  · intro fuel pre post bad e hbad
    simp [load_parsers_from_schemas, List.filterMap_append, List.filterMap_cons,
      hbad, Except.toOption]

/-- Witness for `c8_unknown_type_and_batch` — the §8 scenario: the unknown
type string `"foo"` produces a compile error naming `"foo"`, and in the
batch `[uint8-schema, foo-schema, uint16-schema]` the two valid schemas
still load (in order) while the bad one is skipped. -/
theorem c8_unknown_type_and_batch_witness :
    build_struct_from_schema 1 (.jobj [("type", .jstr "foo")]) =
      .error ("Unknown type in schema: " ++ "foo") ∧
    load_parsers_from_schemas 2
        ([.jobj [("structure", .jobj [("type", .jstr "uint8")])]] ++
          .jobj [("structure", .jobj [("type", .jstr "foo")])] ::
          [.jobj [("structure", .jobj [("type", .jstr "uint16")])]]) =
      load_parsers_from_schemas 2
          [.jobj [("structure", .jobj [("type", .jstr "uint8")])]] ++
        load_parsers_from_schemas 2
          [.jobj [("structure", .jobj [("type", .jstr "uint16")])]] ∧
    load_parsers_from_schemas 2
        [.jobj [("structure", .jobj [("type", .jstr "uint8")])],
         .jobj [("structure", .jobj [("type", .jstr "foo")])],
         .jobj [("structure", .jobj [("type", .jstr "uint16")])]] =
      [.cprim (.pint 1 false), .cprim (.pint 2 false)] := by
  refine ⟨?_, ?_, rfl⟩
  · exact c8_unknown_type_and_batch.1 0 (.jobj [("type", .jstr "foo")]) "foo"
      rfl (by decide)
  · exact c8_unknown_type_and_batch.2 2
      [.jobj [("structure", .jobj [("type", .jstr "uint8")])]]
      [.jobj [("structure", .jobj [("type", .jstr "uint16")])]]
      (.jobj [("structure", .jobj [("type", .jstr "foo")])])
      ("Unknown type in schema: " ++ "foo") rfl

/-! ## Claim C5 -/

/-- `int()` truncation: `ratTrunc` rounds toward zero — floor on
non-negatives, ceiling on negatives (it never rounds to nearest). -/
theorem ratTrunc_eq_trunc_toward_zero (q : Rat) :
    ratTrunc q = if 0 ≤ q then ⌊q⌋ else ⌈q⌉ := by
  by_cases h : 0 ≤ q
  · rw [if_pos h, ratTrunc, Rat.floor_def,
      Int.tdiv_eq_ediv (by exact_mod_cast Rat.num_nonneg.2 h) (by positivity)]
  · rw [if_neg h]
    have hq : q < 0 := lt_of_not_le h
    have hnn : 0 ≤ (-q).num := by
      rw [show (-q).num = -q.num from rfl]
      have := Rat.num_neg.2 hq
      omega
    have : ⌊-q⌋ = (-q).num.tdiv (-q).den := by
      rw [Rat.floor_def, Int.tdiv_eq_ediv hnn (by positivity)]
    rw [show (⌈q⌉ : Int) = -⌊-q⌋ from rfl, this,
      show (-q).num = -q.num from rfl, show (-q).den = q.den from rfl,
      Int.neg_tdiv, neg_neg, ratTrunc]

/-- C5: a scaled primitive decodes to the raw stored integer divided by
`scale` (exact division into a non-integral value), and encodes by
multiplying by `scale` and truncating toward zero (`ratTrunc`, which is
floor for non-negatives and ceiling for negatives — not rounding); in
particular with `scale: 100` over a 16-bit unsigned base, decoding raw 250
(bytes `FA 00`) yields 2.5, and encoding 2.7 yields raw 270
(bytes `0E 01`). -/
theorem c5_scale_adapter :
    (∀ (fuel : Nat) (p : PrimK) (scale : Rat) (ctx : Ctx) (bs rest : List Nat)
        (i : Int),
        scale ≠ 0 →
        primDecode p bs = some (.vint i, rest) →
        decodeD (fuel + 1) (.cscaled p scale) ctx bs =
          some (.vrat ((i : Rat) / scale), rest)) ∧
    (∀ (fuel : Nat) (p : PrimK) (scale : Rat) (ctx : Ctx) (q : Rat),
        encodeD (fuel + 1) (.cscaled p scale) ctx (.vrat q) =
          primEncode p (.vint (ratTrunc (q * scale)))) ∧
    (∀ q : Rat, ratTrunc q = if 0 ≤ q then ⌊q⌋ else ⌈q⌉) ∧
    decodeD 5 (.cscaled (.pint 2 false) 100) [] [250, 0] =
      some (.vrat (2.5 : Rat), []) ∧
    ratTrunc ((2.7 : Rat) * 100) = 270 ∧
    encodeD 5 (.cscaled (.pint 2 false) 100) [] (.vrat (2.7 : Rat)) =
      some [14, 1] ∧
    leNat [14, 1] = 270 := by
  have hdec : ∀ (fuel : Nat) (p : PrimK) (scale : Rat) (ctx : Ctx)
      (bs rest : List Nat) (i : Int), scale ≠ 0 →
      primDecode p bs = some (.vint i, rest) →
      decodeD (fuel + 1) (.cscaled p scale) ctx bs =
        some (.vrat ((i : Rat) / scale), rest) := by
    intro fuel p scale ctx bs rest i hs hp
    simp only [decodeD, hp, hs, if_false]
  have henc : ∀ (fuel : Nat) (p : PrimK) (scale : Rat) (ctx : Ctx) (q : Rat),
      encodeD (fuel + 1) (.cscaled p scale) ctx (.vrat q) =
        primEncode p (.vint (ratTrunc (q * scale))) := fun _ _ _ _ _ => rfl
  have htr : ratTrunc ((2.7 : Rat) * 100) = 270 := by
    norm_num [ratTrunc]
  refine ⟨hdec, henc, ratTrunc_eq_trunc_toward_zero, ?_, htr, ?_, rfl⟩
  · have h := hdec 4 (.pint 2 false) 100 [] [250, 0] [] 250 (by norm_num) rfl
    rw [h]
    norm_num
  · rw [henc 4 (.pint 2 false) 100 [] (2.7 : Rat), htr]
    rfl

/-- Witness for `c5_scale_adapter`'s hypothesis-bearing first conjunct:
scale 100 over the bytes `FA 00` (raw 250). -/
theorem c5_scale_adapter_witness :
    decodeD 5 (.cscaled (.pint 2 false) 100) [] [250, 0] =
      some (.vrat (((250 : Int) : Rat) / 100), []) := by
  exact c5_scale_adapter.1 4 (.pint 2 false) 100 [] [250, 0] [] 250
    (by norm_num) rfl

/-! ## Round-trip machinery (claim C1)

Byte-level inverses, the disjoint-OR identity behind the bitfield
reconstruction, and the decode/encode context correspondence. -/

/-- A little-endian value fits in its width. -/
theorem leNat_lt (bs : List Nat) (h : validBytes bs) :
    leNat bs < 2 ^ (8 * bs.length) := by
  induction bs with
  | nil => simp [leNat]
  | cons b rest ih =>
      have hb : b < 256 := h b (by simp)
      have hr : leNat rest < 2 ^ (8 * rest.length) :=
        ih (fun x hx => h x (by simp [hx]))
      have : 2 ^ (8 * (b :: rest).length) = 256 * 2 ^ (8 * rest.length) := by
        simp [List.length_cons]
        ring
      rw [leNat, this]
      omega

/-- Re-encoding a little-endian parse gives back the bytes. -/
theorem leBytes_leNat (bs : List Nat) (h : validBytes bs) :
    leBytes bs.length (leNat bs) = bs := by
  induction bs with
  | nil => rfl
  | cons b rest ih =>
      have hb : b < 256 := h b (by simp)
      have ih' := ih (fun x hx => h x (by simp [hx]))
      simp only [List.length_cons, leBytes, leNat]
      rw [show (b + 256 * leNat rest) % 256 = b by omega,
        show (b + 256 * leNat rest) / 256 = leNat rest by omega, ih']

/-- A big-endian value fits in its width. -/
theorem beNat_lt (bs : List Nat) (h : validBytes bs) :
    beNat bs < 2 ^ (8 * bs.length) := by
  have := leNat_lt bs.reverse (fun x hx => h x (List.mem_reverse.1 hx))
  simpa [beNat] using this

/-- Re-encoding a big-endian parse gives back the bytes. -/
theorem beBytes_beNat (bs : List Nat) (h : validBytes bs) :
    beBytes bs.length (beNat bs) = bs := by
  have := leBytes_leNat bs.reverse (fun x hx => h x (List.mem_reverse.1 hx))
  rw [beBytes, beNat]
  rw [show bs.length = bs.reverse.length by simp, this, List.reverse_reverse]

/-- Suffix of a valid byte split is valid. -/
theorem validBytes_append_right (xs ys : List Nat) (h : validBytes (xs ++ ys)) :
    validBytes ys := fun b hb => h b (by simp [hb])

/-- A value below a bit is untouched by setting higher bits: ORing in a
shifted value is addition (the accumulation step of
`BitFieldAdapter._encode` on disjoint ranges). -/
theorem lor_low (a c b : Nat) (h : a < 2 ^ b) :
    a ||| (c <<< b) = a + c * 2 ^ b := by
  apply Nat.eq_of_testBit_eq
  intro j
  rw [Nat.testBit_lor, Nat.testBit_shiftLeft,
    show a + c * 2 ^ b = 2 ^ b * c + a by ring,
    Nat.testBit_mul_pow_two_add c h j]
  by_cases hj : j < b
  · simp [hj, show ¬ (j ≥ b) by omega]
  · have hge : j ≥ b := by omega
    have ha : a.testBit j = false :=
      Nat.testBit_lt_two_pow (lt_of_lt_of_le h (Nat.pow_le_pow_right (by norm_num) hge))
    simp [hj, hge, ha]

/-- Splitting a residue at bit `b`: the next `w` bits of `v` sit on top of
`v mod 2^b`. -/
theorem mod_pow_split (v b w : Nat) :
    v % 2 ^ (b + w) = v % 2 ^ b + (v / 2 ^ b % 2 ^ w) * 2 ^ b := by
  rw [pow_add, Nat.mod_mul]
  ring

/-- In a name-distinct association list, every entry is found by its own
name. -/
theorem lookupStr_self (pairs : List (String × Value))
    (hnd : (pairs.map Prod.fst).Nodup) :
    ∀ p ∈ pairs, Value.lookupStr pairs p.1 = some p.2 := by
  induction pairs with
  | nil => intro p hp; cases hp
  | cons hd tl ih =>
      intro p hp
      simp only [List.map_cons, List.nodup_cons] at hnd
      rw [List.mem_cons] at hp
      rcases hp with rfl | hp
      · simp [Value.lookupStr]
      · have hne : hd.1 ≠ p.1 := by
          intro he
          exact hnd.1 (he ▸ (List.mem_map.2 ⟨p, hp, rfl⟩))
        obtain ⟨hn, hv⟩ := hd
        simp only [Value.lookupStr, if_neg hne]
        exact ih hnd.2 p hp

/-- A found name is a member. -/
theorem lookupStr_some_mem (l : List (String × Value)) (n : String) (v : Value)
    (h : Value.lookupStr l n = some v) : n ∈ l.map Prod.fst := by
  induction l with
  | nil => cases h
  | cons hd tl ih =>
      by_cases he : hd.1 = n
      · simp [he]
      · simp only [Value.lookupStr, if_neg he] at h
        simp [ih h]

/-- Correspondence between a decode-time context and the encode-time
context at the same tree position: every dot path that resolves to an
int-usable (count-usable) value at decode time resolves identically at
encode time.  (`Struct._build` places each field into the context *before*
building it, whereas `Struct._parse` adds it *after* parsing it, so the
encode context can carry one extra, still-unresolvable binding.) -/
def ctxR (cd ce : Ctx) : Prop :=
  ∀ (p : String) (ps : List String) (v : Value),
    resolveCtx cd (p :: ps) = some v → v.asInt.isSome = true →
    resolveCtx ce (p :: ps) = some v

/-- `ctxR` is reflexive. -/
theorem ctxR_refl (c : Ctx) : ctxR c c := fun _ _ _ h _ => h

/-- One resolution step from a context map. -/
theorem resolveCtx_cons (ctx : Ctx) (p : String) (ps : List String) :
    resolveCtx ctx (p :: ps) =
      match Value.lookupStr ctx p with
      | some w => resolveVal w ps
      | none => none := rfl

/-- Adding the same binding on both sides preserves `ctxR`. -/
theorem ctxR_push (cd ce : Ctx) (n : String) (v : Value) (h : ctxR cd ce) :
    ctxR ((n, v) :: cd) ((n, v) :: ce) := by
  intro p ps w hres hint
  rw [resolveCtx_cons] at hres ⊢
  by_cases hpn : n = p
  · simpa [Value.lookupStr, hpn] using hres
  · simp only [Value.lookupStr, if_neg hpn] at hres ⊢
    have := h p ps w (by rw [resolveCtx_cons]; exact hres) hint
    rw [resolveCtx_cons] at this
    exact this

/-- Adding a binding for a name the decode side has not (yet) bound
preserves `ctxR`: no decode-time resolution can enter through it. -/
theorem ctxR_skip (cd ce : Ctx) (n : String) (v : Value)
    (h : ctxR cd ce) (hfresh : Value.lookupStr cd n = none) :
    ctxR cd ((n, v) :: ce) := by
  intro p ps w hres hint
  rw [resolveCtx_cons] at hres ⊢
  by_cases hpn : n = p
  · rw [← hpn, hfresh] at hres
    cases hres
  · simp only [Value.lookupStr, if_neg hpn]
    have := h p ps w (by rw [resolveCtx_cons]; exact hres) hint
    rw [resolveCtx_cons] at this
    exact this

/-- Opening corresponding struct scopes preserves `ctxR`. -/
theorem ctxR_scope (cd ce : Ctx) (h : ctxR cd ce) :
    ctxR [("_", .vmap true cd)] [("_", .vmap true ce)] := by
  intro p ps w hres hint
  rw [resolveCtx_cons] at hres ⊢
  by_cases hpn : "_" = p
  · simp only [Value.lookupStr, if_pos hpn] at hres ⊢
    cases ps with
    | nil =>
        -- the path ends at the whole scope map, which is not int-usable
        simp only [resolveVal] at hres
        injection hres with hres
        rw [← hres] at hint
        cases hint
    | cons p2 ps2 =>
        exact h p2 ps2 w hres hint
  · simp only [Value.lookupStr, if_neg hpn] at hres
    cases hres

/-- Flag extraction preserves the flag names, in order. -/
theorem decodeBitFlags_names (S : Int) (value : Nat) :
    ∀ (fs : List (String × Int)) (pairs : List (String × Value)),
      decodeBitFlags S value fs = some pairs →
      pairs.map Prod.fst = fs.map Prod.fst := by
  intro fs
  induction fs with
  | nil => intro pairs h; cases h; rfl
  | cons hd tl ih =>
      obtain ⟨n, b⟩ := hd
      intro pairs h
      simp only [decodeBitFlags] at h
      by_cases h1 : flagEnd S tl - b = 1 <;>
        simp only [h1, if_true, if_false] at h
      · by_cases hb : b < 0 <;> simp only [hb, if_true, if_false] at h
        · cases h
        · cases hrest : decodeBitFlags S value tl with
          | none => rw [hrest] at h; cases h
          | some tail =>
              rw [hrest] at h
              injection h with h
              rw [← h]
              simp [ih tail hrest]
      · by_cases hw : flagEnd S tl - b < 0 <;>
          simp only [hw, if_true, if_false] at h
        · cases h
        · by_cases hb : b < 0 <;> simp only [hb, if_true, if_false] at h
          · cases h
          · cases hrest : decodeBitFlags S value tl with
            | none => rw [hrest] at h; cases h
            | some tail =>
                rw [hrest] at h
                injection h with h
                rw [← h]
                simp [ih tail hrest]

/-- The accumulation loop of `BitFieldAdapter._encode` reconstructs the
decoded integer range by range: starting from the bits below `b` — where
`b` is the first flag's start bit (or `size_bits` when no flags remain,
i.e. `flagEnd S fs = b`) — and feeding back the values `_decode`
extracted, it ends with the bits below `size_bits`. -/
theorem bf_enc_loop (S : Int) (value : Nat) (m : Value) :
    ∀ (fs : List (String × Int)) (b : Int) (pairs : List (String × Value)),
      0 ≤ b →
      flagEnd S fs = b →
      decodeBitFlags S value fs = some pairs →
      (∀ p ∈ pairs, m.getItem p.1 = some p.2) →
      encodeBitFlags S m fs (value % 2 ^ b.toNat) =
        some (value % 2 ^ S.toNat) := by
  intro fs
  induction fs with
  | nil =>
      intro b pairs hb hcov hdec hm
      simp only [flagEnd] at hcov
      subst hcov
      rfl
  | cons hd tl ih =>
      intro b pairs hb hcov hdec hm
      obtain ⟨n, bf⟩ := hd
      simp only [flagEnd] at hcov
      subst hcov
      -- the flag's start bit is now uniformly `bf`
      have hbn : ¬ bf < 0 := by omega
      by_cases h1 : flagEnd S tl - bf = 1
      · -- width 1: boolean flag
        simp only [decodeBitFlags, h1, if_true, hbn, if_false] at hdec
        cases hrest : decodeBitFlags S value tl with
        | none => rw [hrest] at hdec; cases hdec
        | some tail =>
            rw [hrest] at hdec
            injection hdec with hdec
            have hhead : m.getItem n =
                some (.vbool (((value >>> bf.toNat) &&& 1) == 1)) := by
              have := hm (n, .vbool (((value >>> bf.toNat) &&& 1) == 1))
              rw [← hdec] at this
              exact this (by simp)
            have hmt : ∀ p ∈ tail, m.getItem p.1 = some p.2 := by
              intro p hp
              exact hm p (by rw [← hdec]; simp [hp])
            have hcov' : flagEnd S tl = bf + 1 := by omega
            have hb1 : (bf + 1).toNat = bf.toNat + 1 := by omega
            have hmod : value % 2 ^ bf.toNat < 2 ^ bf.toNat :=
              Nat.mod_lt _ (by positivity)
            have hbit : value / 2 ^ bf.toNat % 2 =
                (if ((value >>> bf.toNat) &&& 1) == 1 then 1 else 0) := by
              rw [Nat.and_one_is_mod, Nat.shiftRight_eq_div_pow]
              rcases Nat.mod_two_eq_zero_or_one (value / 2 ^ bf.toNat) with h | h <;>
                simp [h]
            have hsplit := mod_pow_split value bf.toNat 1
            have ihtl := ih (bf + 1) tail (by omega) hcov' hrest hmt
            rw [hb1] at ihtl
            simp only [encodeBitFlags, hhead, h1, if_true, Value.truthy, hbn,
              if_false]
            by_cases hbv : ((value >>> bf.toNat) &&& 1) == 1
            · rw [hbv]
              simp only [if_true]
              rw [lor_low _ 1 _ hmod,
                show value % 2 ^ bf.toNat + 1 * 2 ^ bf.toNat =
                  value % 2 ^ (bf.toNat + 1) by
                    rw [hsplit, pow_one, hbit, hbv]; simp]
              exact ihtl
            · simp only [hbv, Bool.false_eq_true, if_false]
              rw [show value % 2 ^ bf.toNat = value % 2 ^ (bf.toNat + 1) by
                    rw [hsplit, pow_one, hbit, if_neg (by simpa using hbv)]; simp]
              exact ihtl
      · -- wider flag: unsigned integer
        by_cases hw : flagEnd S tl - bf < 0
        · simp only [decodeBitFlags, h1, if_false, hw, if_true] at hdec
          cases hdec
        · simp only [decodeBitFlags, h1, if_false, hw, hbn] at hdec
          cases hrest : decodeBitFlags S value tl with
          | none => rw [hrest] at hdec; cases hdec
          | some tail =>
              rw [hrest] at hdec
              injection hdec with hdec
              set w : Nat := (flagEnd S tl - bf).toNat with hwdef
              set x : Nat := (value >>> bf.toNat) &&& (2 ^ w - 1) with hxdef
              have hhead : m.getItem n = some (.vint (x : Int)) := by
                have := hm (n, .vint (x : Int))
                rw [← hdec] at this
                exact this (by simp)
              have hmt : ∀ p ∈ tail, m.getItem p.1 = some p.2 := by
                intro p hp
                exact hm p (by rw [← hdec]; simp [hp])
              have hxlt : x < 2 ^ w := by
                rw [hxdef, Nat.shiftRight_eq_div_pow, Nat.and_pow_two_sub_one_eq_mod]
                exact Nat.mod_lt _ (by positivity)
              have hemod : ((x : Int).emod (2 ^ w)).toNat = x := by
                rw [show ((x : Int).emod (2 ^ w)) = (x : Int) % (2 ^ w) from rfl,
                  Int.emod_eq_of_lt (by positivity) (by exact_mod_cast hxlt)]
                exact Int.toNat_ofNat x
              have hbw : (flagEnd S tl).toNat = bf.toNat + w := by omega
              have hmod : value % 2 ^ bf.toNat < 2 ^ bf.toNat :=
                Nat.mod_lt _ (by positivity)
              have ihtl := ih (flagEnd S tl) tail (by omega) rfl hrest hmt
              rw [hbw] at ihtl
              simp only [encodeBitFlags, hhead, h1, if_false, hw, Value.asInt,
                hbn]
              rw [hemod, lor_low _ x _ hmod,
                show value % 2 ^ bf.toNat + x * 2 ^ bf.toNat =
                  value % 2 ^ (bf.toNat + w) by
                    rw [mod_pow_split value bf.toNat w, hxdef,
                      Nat.shiftRight_eq_div_pow, Nat.and_pow_two_sub_one_eq_mod]]
              exact ihtl

/-- Struct decode binds exactly the declared field names, in order. -/
theorem decodeFieldsD_names :
    ∀ (fuel : Nat) (fs : List (String × Codec)) (ctx : Ctx) (bs : List Nat)
      (pairs : List (String × Value)) (rest : List Nat),
      decodeFieldsD fuel fs ctx bs = some (pairs, rest) →
      pairs.map Prod.fst = fs.map Prod.fst := by
  intro fuel
  induction fuel with
  | zero => intro fs ctx bs pairs rest h; cases h
  | succ fuel ih =>
      intro fs ctx bs pairs rest h
      cases fs with
      | nil => cases h; rfl
      | cons hd tl =>
          obtain ⟨n, c⟩ := hd
          simp only [decodeFieldsD] at h
          cases hd1 : decodeD fuel c ctx bs with
          | none => rw [hd1] at h; cases h
          | some vr =>
              obtain ⟨v, bs1⟩ := vr
              simp only [hd1] at h
              cases hd2 : decodeFieldsD fuel tl ((n, v) :: ctx) bs1 with
              | none => rw [hd2] at h; cases h
              | some pr =>
                  obtain ⟨ps, bs2⟩ := pr
                  rw [hd2] at h
                  injection h with h
                  have hps : pairs = (n, v) :: ps := by
                    have := congrArg Prod.fst h
                    simpa using this.symm
                  subst hps
                  simp [ih tl ((n, v) :: ctx) bs1 ps bs2 hd2]

/-- Round-trip statement for `decodeD`/`encodeD` at a given fuel. -/
def RT1 (fuel : Nat) : Prop :=
  ∀ (c : Codec) (cd ce : Ctx) (bs : List Nat) (v : Value) (rest : List Nat),
    lossless c = true → validBytes bs → ctxR cd ce →
    decodeD fuel c cd bs = some (v, rest) →
    ∃ out, encodeD fuel c ce v = some out ∧ out ++ rest = bs

/-- Round-trip statement for the struct field loops. -/
def RT2 (fuel : Nat) : Prop :=
  ∀ (fs : List (String × Codec)) (cd ce : Ctx) (bs : List Nat)
    (pairs : List (String × Value)) (rest : List Nat) (m : Value),
    losslessFields fs = true →
    (fs.map Prod.fst).Nodup →
    (∀ n ∈ fs.map Prod.fst, Value.lookupStr cd n = none) →
    validBytes bs → ctxR cd ce →
    decodeFieldsD fuel fs cd bs = some (pairs, rest) →
    (∀ (n : String) (v' : Value), Value.lookupStr pairs n = some v' →
      m.getItem n = some v') →
    ∃ out, encodeFieldsD fuel fs ce m = some out ∧ out ++ rest = bs

/-- Round-trip statement for the counted-array loops. -/
def RT3 (fuel : Nat) : Prop :=
  ∀ (e : Codec) (k : Nat) (cd ce : Ctx) (bs : List Nat) (items : List Value)
    (rest : List Nat),
    lossless e = true → validBytes bs → ctxR cd ce →
    decodeRepD fuel e k cd bs = some (items, rest) →
    items.length = k ∧
    ∃ out, encodeRepD fuel e ce items = some out ∧ out ++ rest = bs

/-- Round-trip statement for the greedy-array loops. -/
def RT4 (fuel : Nat) : Prop :=
  ∀ (e : Codec) (cd ce : Ctx) (bs : List Nat) (items : List Value)
    (rest : List Nat),
    lossless e = true → validBytes bs → ctxR cd ce →
    greedyD fuel e cd bs = (items, rest) →
    ∃ out, encodeRepD fuel e ce items = some out ∧ out ++ rest = bs

/-- Struct fields: decode-then-encode, stepping the two contexts in sync. -/
theorem rt2_succ (fuel : Nat) (h1 : RT1 fuel) (h2 : RT2 fuel) :
    RT2 (fuel + 1) := by
  intro fs cd ce bs pairs rest m hlf hnd hfresh hvb hR hdec hm
  cases fs with
  | nil =>
      cases hdec
      exact ⟨[], rfl, rfl⟩
  | cons hd tl =>
      obtain ⟨n, c⟩ := hd
      simp only [losslessFields, Bool.and_eq_true] at hlf
      obtain ⟨hlc, hltl⟩ := hlf
      simp only [List.map_cons, List.nodup_cons] at hnd
      obtain ⟨hnmem, hndtl⟩ := hnd
      simp only [decodeFieldsD] at hdec
      cases hd1 : decodeD fuel c cd bs with
      | none => rw [hd1] at hdec; cases hdec
      | some vr =>
          obtain ⟨v0, bs1⟩ := vr
          simp only [hd1] at hdec
          cases hd2 : decodeFieldsD fuel tl ((n, v0) :: cd) bs1 with
          | none => rw [hd2] at hdec; cases hdec
          | some pr =>
              obtain ⟨tailPairs, bs2⟩ := pr
              rw [hd2] at hdec
              injection hdec with hdec
              have hpairs : pairs = (n, v0) :: tailPairs := by
                have := congrArg Prod.fst hdec
                have hr := congrArg Prod.snd hdec
                simp at this hr
                exact this.symm
              have hrest2 : bs2 = rest := by
                have hr := congrArg Prod.snd hdec
                simpa using hr
              subst hpairs
              subst hrest2
              -- the head field's value is found in the caller's map
              have hmn : m.getItem n = some v0 := hm n v0 (by simp [Value.lookupStr])
              -- encode the head field against the extended encode context
              have hfreshn : Value.lookupStr cd n = none := hfresh n (by simp)
              have hRn : ctxR cd ((n, v0) :: ce) := ctxR_skip cd ce n v0 hR hfreshn
              obtain ⟨out0, henc0, heq0⟩ := h1 c cd ((n, v0) :: ce) bs v0 bs1 hlc hvb hRn hd1
              -- the remaining bytes are still valid
              have hvb1 : validBytes bs1 := by
                rw [← heq0] at hvb
                exact validBytes_append_right out0 bs1 hvb
              -- tail: both contexts extended with the same binding
              have hRtl : ctxR ((n, v0) :: cd) ((n, v0) :: ce) := ctxR_push cd ce n v0 hR
              have hfreshtl : ∀ n2 ∈ tl.map Prod.fst,
                  Value.lookupStr ((n, v0) :: cd) n2 = none := by
                intro n2 hn2
                have hne : ¬ n = n2 := fun he => hnmem (he ▸ hn2)
                simp only [Value.lookupStr, if_neg hne]
                exact hfresh n2 (by simp [hn2])
              have hnames := decodeFieldsD_names fuel tl ((n, v0) :: cd) bs1 tailPairs bs2 hd2
              have hmtl : ∀ (n2 : String) (v' : Value),
                  Value.lookupStr tailPairs n2 = some v' → m.getItem n2 = some v' := by
                intro n2 v' hlk
                have hn2mem : n2 ∈ tailPairs.map Prod.fst :=
                  lookupStr_some_mem tailPairs n2 v' hlk
                rw [hnames] at hn2mem
                have hne : ¬ n = n2 := fun he => hnmem (he ▸ hn2mem)
                apply hm
                simp only [Value.lookupStr, if_neg hne]
                exact hlk
              obtain ⟨out1, henc1, heq1⟩ :=
                h2 tl ((n, v0) :: cd) ((n, v0) :: ce) bs1 tailPairs bs2 m
                  hltl hndtl hfreshtl hvb1 hRtl hd2 hmtl
              refine ⟨out0 ++ out1, ?_, ?_⟩
              · simp only [encodeFieldsD, hmn, henc0, henc1]
              · rw [List.append_assoc, heq1, heq0]

/-- Counted element loop: decode-then-encode, element count preserved. -/
theorem rt3_succ (fuel : Nat) (h1 : RT1 fuel) (h3 : RT3 fuel) :
    RT3 (fuel + 1) := by
  intro e k cd ce bs items rest hle hvb hR hdec
  cases k with
  | zero =>
      cases hdec
      exact ⟨rfl, [], rfl, rfl⟩
  | succ k =>
      simp only [decodeRepD] at hdec
      cases hd1 : decodeD fuel e cd bs with
      | none => rw [hd1] at hdec; cases hdec
      | some vr =>
          obtain ⟨v0, bs1⟩ := vr
          simp only [hd1] at hdec
          cases hd2 : decodeRepD fuel e k cd bs1 with
          | none => rw [hd2] at hdec; cases hdec
          | some pr =>
              obtain ⟨vs, bs2⟩ := pr
              rw [hd2] at hdec
              injection hdec with hdec
              have hitems : items = v0 :: vs := by
                have := congrArg Prod.fst hdec
                simpa using this.symm
              have hrest : rest = bs2 := by
                have := congrArg Prod.snd hdec
                simpa using this.symm
              subst hitems
              subst hrest
              obtain ⟨out0, henc0, heq0⟩ := h1 e cd ce bs v0 bs1 hle hvb hR hd1
              have hvb1 : validBytes bs1 := by
                rw [← heq0] at hvb
                exact validBytes_append_right out0 bs1 hvb
              obtain ⟨hlen, out1, henc1, heq1⟩ :=
                h3 e k cd ce bs1 vs rest hle hvb1 hR hd2
              refine ⟨by simp [hlen], out0 ++ out1, ?_, ?_⟩
              · simp only [encodeRepD, henc0, henc1]
              · rw [List.append_assoc, heq1, heq0]

/-- Greedy element loop: whatever prefix of elements decode collected,
encoding them writes back exactly the consumed bytes. -/
theorem rt4_succ (fuel : Nat) (h1 : RT1 fuel) (h4 : RT4 fuel) :
    RT4 (fuel + 1) := by
  intro e cd ce bs items rest hle hvb hR hdec
  simp only [greedyD] at hdec
  cases hd1 : decodeD fuel e cd bs with
  | none =>
      rw [hd1] at hdec
      injection hdec with hi hr
      subst hi
      subst hr
      exact ⟨[], rfl, rfl⟩
  | some vr =>
      obtain ⟨v0, bs1⟩ := vr
      simp only [hd1] at hdec
      obtain ⟨out0, henc0, heq0⟩ := h1 e cd ce bs v0 bs1 hle hvb hR hd1
      have hvb1 : validBytes bs1 := by
        rw [← heq0] at hvb
        exact validBytes_append_right out0 bs1 hvb
      cases hg : greedyD fuel e cd bs1 with
      | mk vs rest2 =>
          rw [hg] at hdec
          injection hdec with hi hr
          subst hi
          subst hr
          obtain ⟨out1, henc1, heq1⟩ := h4 e cd ce bs1 vs rest2 hle hvb1 hR hg
          refine ⟨out0 ++ out1, ?_, ?_⟩
          · simp only [encodeRepD, henc0, henc1]
          · rw [List.append_assoc, heq1, heq0]

/-- Integer primitives re-encode to their own bytes (both signednesses). -/
theorem rt_prim_int (w : Nat) (sgn : Bool) (bs : List Nat) (v : Value)
    (rest : List Nat) (hvb : validBytes bs)
    (hdec : primDecode (.pint w sgn) bs = some (v, rest)) :
    ∃ out, primEncode (.pint w sgn) v = some out ∧ out ++ rest = bs := by
  simp only [primDecode] at hdec
  by_cases hlen : bs.length < w
  · rw [if_pos hlen] at hdec; cases hdec
  · rw [if_neg hlen] at hdec
    injection hdec with hdec
    have hv : v = .vint (if sgn = true ∧ 2 ^ (8 * w - 1) ≤ leNat (bs.take w)
        then ((leNat (bs.take w) : Int)) - 2 ^ (8 * w) else (leNat (bs.take w) : Int)) := by
      have := congrArg Prod.fst hdec
      simpa using this.symm
    have hrest : rest = bs.drop w := by
      have := congrArg Prod.snd hdec
      simpa using this.symm
    subst hv
    subst hrest
    have htv : validBytes (bs.take w) := fun b hb => hvb b (List.mem_of_mem_take hb)
    have hlt : (bs.take w).length = w := by
      rw [List.length_take]
      omega
    have hraw : leNat (bs.take w) < 2 ^ (8 * w) := by
      have := leNat_lt (bs.take w) htv
      rwa [hlt] at this
    have hbytes : leBytes w (leNat (bs.take w)) = bs.take w := by
      have := leBytes_leNat (bs.take w) htv
      rwa [hlt] at this
    have hPQ : (w = 0 ∧ (2 : Nat) ^ (8 * w - 1) = 1 ∧ (2 : Nat) ^ (8 * w) = 1) ∨
        (2 : Nat) ^ (8 * w) = 2 * 2 ^ (8 * w - 1) := by
      cases w with
      | zero => left; exact ⟨rfl, rfl, rfl⟩
      | succ w' =>
          right
          have h81 : 8 * (w' + 1) = (8 * w' + 7) + 1 := by omega
          rw [h81, pow_succ, show (8 * w' + 7) + 1 - 1 = 8 * w' + 7 by omega]
          ring
    have hQcast : ((2 : Int) ^ (8 * w)) = ((2 ^ (8 * w) : Nat) : Int) := by push_cast; rfl
    have hPcast : ((2 : Int) ^ (8 * w - 1)) = ((2 ^ (8 * w - 1) : Nat) : Int) := by
      push_cast; rfl
    cases sgn with
    | false =>
        rw [if_neg (by simp)]
        refine ⟨bs.take w, ?_, by rw [List.take_append_drop]⟩
        simp only [primEncode, Value.asInt]
        rw [if_neg (by simp)]
        rw [if_pos ⟨by positivity, by rw [hQcast]; exact_mod_cast hraw⟩]
        rw [Int.toNat_ofNat, hbytes]
    | true =>
        by_cases hc : 2 ^ (8 * w - 1) ≤ leNat (bs.take w)
        · rw [if_pos ⟨rfl, hc⟩]
          refine ⟨bs.take w, ?_, by rw [List.take_append_drop]⟩
          simp only [primEncode, Value.asInt, if_pos rfl]
          have hw0 : w ≠ 0 := by
            rintro rfl
            rw [show 8 * 0 - 1 = 0 by omega] at hc
            rw [show 8 * 0 = 0 by omega] at hraw
            simp at hc hraw
            omega
          have hQ2P : (2 : Nat) ^ (8 * w) = 2 * 2 ^ (8 * w - 1) := by
            rcases hPQ with ⟨h, _, _⟩ | h2P
            · exact absurd h hw0
            · exact h2P
          have hQ2PI : ((2 ^ (8 * w) : Nat) : Int) =
              2 * ((2 ^ (8 * w - 1) : Nat) : Int) := by exact_mod_cast hQ2P
          have hcI : ((2 ^ (8 * w - 1) : Nat) : Int) ≤ (leNat (bs.take w) : Int) := by
            exact_mod_cast hc
          have hrI : ((leNat (bs.take w) : Int)) < ((2 ^ (8 * w) : Nat) : Int) := by
            exact_mod_cast hraw
          have hcond : -((2 : Int) ^ (8 * w - 1)) ≤
              (leNat (bs.take w) : Int) - 2 ^ (8 * w) ∧
              (leNat (bs.take w) : Int) - 2 ^ (8 * w) < 2 ^ (8 * w - 1) := by
            rw [hPcast, hQcast]
            omega
          rw [if_pos hcond]
          rw [show ((leNat (bs.take w) : Int) - 2 ^ (8 * w)).emod (2 ^ (8 * w)) =
              ((leNat (bs.take w) : Int) - 2 ^ (8 * w)) % (2 ^ (8 * w)) from rfl,
            Int.emod_sub_cancel,
            Int.emod_eq_of_lt (by positivity) (by rw [hQcast]; exact_mod_cast hraw),
            Int.toNat_ofNat, hbytes]
          simp
        · rw [if_neg (by simp [hc])]
          refine ⟨bs.take w, ?_, by rw [List.take_append_drop]⟩
          simp only [primEncode, Value.asInt, if_pos rfl]
          have hcI : (leNat (bs.take w) : Int) < ((2 ^ (8 * w - 1) : Nat) : Int) := by
            exact_mod_cast Nat.lt_of_not_le hc
          have hcond : -((2 : Int) ^ (8 * w - 1)) ≤ (leNat (bs.take w) : Int) ∧
              (leNat (bs.take w) : Int) < 2 ^ (8 * w - 1) := by
            rw [hPcast]
            omega
          rw [if_pos hcond]
          rw [show ((leNat (bs.take w) : Int)).emod (2 ^ (8 * w)) =
              ((leNat (bs.take w) : Int)) % (2 ^ (8 * w)) from rfl,
            Int.emod_eq_of_lt (by positivity) (by rw [hQcast]; exact_mod_cast hraw),
            Int.toNat_ofNat, hbytes]
          simp

/-- A lossless bitfield (full coverage of a byte-aligned width, distinct
names) re-encodes to its own bytes. -/
theorem rt_bitfield (fuel : Nat) (S : Int) (flags : List (String × Int))
    (cd ce : Ctx) (bs : List Nat) (v : Value) (rest : List Nat)
    (hloss : bitfieldLossless S flags = true) (hvb : validBytes bs)
    (hdec : decodeD (fuel + 1) (.cbitfield S flags) cd bs = some (v, rest)) :
    ∃ out, encodeD (fuel + 1) (.cbitfield S flags) ce v = some out ∧
      out ++ rest = bs := by
  simp only [bitfieldLossless, Bool.and_eq_true, decide_eq_true_eq] at hloss
  obtain ⟨⟨⟨⟨⟨hS, h8⟩, hhead⟩, hasc⟩, hlt⟩, hnd⟩ := hloss
  -- byte count: S/8 bytes, 8 * k = S
  have hfd : (((S + 7).fdiv 8)).toNat = (S.toNat + 7) / 8 := fdiv8_toNat S (by omega)
  have hnn : ¬ (S + 7).fdiv 8 < 0 := by
    rw [Int.fdiv_eq_ediv _ (by norm_num)]
    have : (0 : Int) ≤ (S + 7) / 8 := Int.ediv_nonneg (by omega) (by norm_num)
    omega
  have h8k : 8 * ((S + 7).fdiv 8).toNat = S.toNat := by
    rw [hfd]
    omega
  simp only [decodeD, hnn, if_false] at hdec
  by_cases hblen : bs.length < ((S + 7).fdiv 8).toNat
  · rw [if_pos hblen] at hdec; cases hdec
  · rw [if_neg hblen] at hdec
    cases hdf : decodeBitFlags S (beNat (bs.take ((S + 7).fdiv 8).toNat)) flags with
    | none => rw [hdf] at hdec; cases hdec
    | some pairs =>
        rw [hdf] at hdec
        injection hdec with hdec
        have hv : v = .vmap false pairs := by
          have := congrArg Prod.fst hdec
          simpa using this.symm
        have hrest : rest = bs.drop ((S + 7).fdiv 8).toNat := by
          have := congrArg Prod.snd hdec
          simpa using this.symm
        subst hv
        subst hrest
        set k : Nat := ((S + 7).fdiv 8).toNat with hkdef
        set value : Nat := beNat (bs.take k) with hvdef
        have htvb : validBytes (bs.take k) := fun b hb => hvb b (List.mem_of_mem_take hb)
        have htl : (bs.take k).length = k := by
          rw [List.length_take]
          omega
        have hval : value < 2 ^ S.toNat := by
          have := beNat_lt (bs.take k) htvb
          rw [htl, h8k] at this
          exact this
        -- every decoded pair is found by name in the decoded map
        have hnames := decodeBitFlags_names S value flags pairs hdf
        have hpnd : (pairs.map Prod.fst).Nodup := by rw [hnames]; exact hnd
        have hm : ∀ p ∈ pairs, (Value.vmap false pairs).getItem p.1 = some p.2 :=
          fun p hp => lookupStr_self pairs hpnd p hp
        -- the first flag starts at bit 0
        have hcov : flagEnd S flags = 0 := by
          cases flags with
          | nil => simp at hhead
          | cons hd tl =>
              obtain ⟨n0, b0⟩ := hd
              simp only [decide_eq_true_eq] at hhead
              simp [flagEnd, hhead]
        have hloop := bf_enc_loop S value (.vmap false pairs) flags 0 pairs
          (by omega) hcov hdf hm
        rw [show ((0 : Int)).toNat = 0 from rfl, pow_zero, Nat.mod_one] at hloop
        rw [Nat.mod_eq_of_lt hval] at hloop
        refine ⟨bs.take k, ?_, by rw [List.take_append_drop]⟩
        simp only [encodeD, hloop, hnn, if_false, ← hkdef, h8k, if_pos hval]
        have := beBytes_beNat (bs.take k) htvb
        rw [htl] at this
        rw [this]

/-- The decode/encode round trip, one fuel step, dispatching on the codec. -/
theorem rt1_succ (fuel : Nat) (h2 : RT2 fuel) (h3 : RT3 fuel) (h4 : RT4 fuel) :
    RT1 (fuel + 1) := by
  intro c cd ce bs v rest hl hvb hR hdec
  cases c with
  | cstruct fields =>
      simp only [lossless, Bool.and_eq_true, decide_eq_true_eq,
        Bool.not_eq_true'] at hl
      obtain ⟨⟨hnd, hnc⟩, hlf⟩ := hl
      simp only [decodeD] at hdec
      cases hfd : decodeFieldsD fuel fields [("_", .vmap true cd)] bs with
      | none => rw [hfd] at hdec; cases hdec
      | some pr =>
          obtain ⟨pairs, rest2⟩ := pr
          rw [hfd] at hdec
          injection hdec with hdec
          rw [Prod.mk.injEq] at hdec
          obtain ⟨hv, hr⟩ := hdec
          subst hv
          subst hr
          have hnotund : "_" ∉ fields.map Prod.fst := hnc
          obtain ⟨out, henc, heq⟩ :=
            h2 fields [("_", .vmap true cd)] [("_", .vmap true ce)] bs pairs rest2
              (.vmap true pairs) hlf hnd
              (by
                intro n hn
                have hne : ¬ ("_" = n) := fun he => hnotund (he ▸ hn)
                simp [Value.lookupStr, hne])
              hvb (ctxR_scope cd ce hR) hfd
              (fun n v' h => h)
          exact ⟨out, by simp only [encodeD]; exact henc, heq⟩
  | carrayLit n e =>
      simp only [lossless] at hl
      simp only [decodeD] at hdec
      by_cases hn : n < 0
      · rw [if_pos hn] at hdec; cases hdec
      · rw [if_neg hn] at hdec
        cases hrep : decodeRepD fuel e n.toNat cd bs with
        | none => rw [hrep] at hdec; cases hdec
        | some pr =>
            obtain ⟨vs, rest2⟩ := pr
            rw [hrep] at hdec
            injection hdec with hdec
            rw [Prod.mk.injEq] at hdec
            obtain ⟨hv, hr⟩ := hdec
            subst hv
            subst hr
            obtain ⟨hlen, out, henc, heq⟩ :=
              h3 e n.toNat cd ce bs vs rest2 hl hvb hR hrep
            refine ⟨out, ?_, heq⟩
            simp only [encodeD]
            rw [if_pos (by omega : (vs.length : Int) = n)]
            exact henc
  | carrayPath parts e =>
      simp only [lossless] at hl
      simp only [decodeD] at hdec
      cases hres : resolveCtx cd parts with
      | none => rw [hres] at hdec; cases hdec
      | some cv =>
          simp only [hres] at hdec
          cases hci : cv.asInt with
          | none => rw [hci] at hdec; cases hdec
          | some nn =>
              simp only [hci] at hdec
              by_cases hn : nn < 0
              · rw [if_pos hn] at hdec; cases hdec
              · rw [if_neg hn] at hdec
                cases hrep : decodeRepD fuel e nn.toNat cd bs with
                | none => rw [hrep] at hdec; cases hdec
                | some pr =>
                    obtain ⟨vs, rest2⟩ := pr
                    rw [hrep] at hdec
                    injection hdec with hdec
                    rw [Prod.mk.injEq] at hdec
                    obtain ⟨hv, hr⟩ := hdec
                    subst hv
                    subst hr
                    -- the path is non-empty: an empty path resolves to the
                    -- whole scope map, which is not int-usable
                    have hne : ∃ p ps, parts = p :: ps := by
                      cases parts with
                      | nil =>
                          exfalso
                          simp only [resolveCtx, resolveVal] at hres
                          injection hres with hres
                          rw [← hres] at hci
                          cases hci
                      | cons p ps => exact ⟨p, ps, rfl⟩
                    obtain ⟨p, ps, hps⟩ := hne
                    subst hps
                    have hres2 : resolveCtx ce (p :: ps) = some cv :=
                      hR p ps cv hres (by rw [hci]; rfl)
                    obtain ⟨hlen, out, henc, heq⟩ :=
                      h3 e nn.toNat cd ce bs vs rest2 hl hvb hR hrep
                    refine ⟨out, ?_, heq⟩
                    simp only [encodeD, hres2, hci]
                    rw [if_pos (by omega : (vs.length : Int) = nn)]
                    exact henc
  | cgreedy e =>
      simp only [lossless] at hl
      simp only [decodeD] at hdec
      cases hg : greedyD fuel e cd bs with
      | mk vs rest2 =>
          simp only [hg] at hdec
          injection hdec with hdec
          rw [Prod.mk.injEq] at hdec
          obtain ⟨hv, hr⟩ := hdec
          subst hv
          subst hr
          obtain ⟨out, henc, heq⟩ := h4 e cd ce bs vs rest2 hl hvb hR hg
          exact ⟨out, by simp only [encodeD]; exact henc, heq⟩
  | cboolBit => simp [lossless] at hl
  | cbytes n =>
      simp only [decodeD] at hdec
      by_cases hlen : bs.length < n
      · rw [if_pos hlen] at hdec; cases hdec
      · rw [if_neg hlen] at hdec
        injection hdec with hdec
        rw [Prod.mk.injEq] at hdec
        obtain ⟨hv, hr⟩ := hdec
        subst hv
        subst hr
        refine ⟨bs.take n, ?_, by rw [List.take_append_drop]⟩
        simp only [encodeD]
        rw [if_pos (by rw [List.length_take]; omega)]
  | cstring len enc => simp [lossless] at hl
  | cbitfield S flags => exact rt_bitfield fuel S flags cd ce bs v rest hl hvb hdec
  | cprim p =>
      cases p with
      | pint w sgn =>
          simp only [decodeD] at hdec
          exact rt_prim_int w sgn bs v rest hvb hdec
      | pflt w => simp [lossless] at hl
  | cscaled p scale => simp [lossless] at hl

/-- All four round-trip statements hold at every fuel. -/
theorem roundtripAux : ∀ fuel : Nat, RT1 fuel ∧ RT2 fuel ∧ RT3 fuel ∧ RT4 fuel := by
  intro fuel
  induction fuel with
  | zero =>
      refine ⟨?_, ?_, ?_, ?_⟩
      · intro c cd ce bs v rest _ _ _ h; cases h
      · intro fs cd ce bs pairs rest m _ _ _ _ _ h _; cases h
      · intro e k cd ce bs items rest _ _ _ h; cases h
      · intro e cd ce bs items rest _ _ _ h
        simp only [greedyD] at h
        rw [Prod.mk.injEq] at h
        obtain ⟨hi, hr⟩ := h
        subst hi
        subst hr
        exact ⟨[], rfl, rfl⟩
  | succ fuel ih =>
      obtain ⟨ih1, ih2, ih3, ih4⟩ := ih
      exact ⟨rt1_succ fuel ih2 ih3 ih4, rt2_succ fuel ih1 ih2,
             rt3_succ fuel ih1 ih3, rt4_succ fuel ih1 ih4⟩

/-! ## Claim C1 -/

/-- C1: for every codec built only from non-scaled, non-lossy nodes
(`lossless`: structs with distinct non-`"_"` field names, literal- and
path-counted and until-eof arrays, raw byte blocks, integer primitives,
and bitfields whose flags exactly tile a positive byte-aligned width with
distinct names — excluding `ScaleAdapter`, the lossy `char`/`BoolBitAdapter`,
pad-stripping strings, floats, and partially-covering bitfields), and
every well-formed byte string the codec accepts, encoding the decoded
value returns exactly the consumed bytes: byte-exact round-trip
(`encode(decode(bytes)) == bytes` when the codec consumes all of `bytes`). -/
theorem c1_lossless_roundtrip (fuel : Nat) (c : Codec) (bs : List Nat)
    (v : Value) (rest : List Nat)
    (hl : lossless c = true) (hvb : validBytes bs)
    (hdec : decodeD fuel c [] bs = some (v, rest)) :
    ∃ out, encodeD fuel c [] v = some out ∧ out ++ rest = bs ∧
      (rest = [] → encodeD fuel c [] v = some bs) := by
  obtain ⟨out, henc, heq⟩ :=
    (roundtripAux fuel).1 c [] [] bs v rest hl hvb (ctxR_refl []) hdec
  refine ⟨out, henc, heq, ?_⟩
  intro hrest
  subst hrest
  rw [List.append_nil] at heq
  rw [henc, heq]

/-- A demonstration codec for the C1 witness: a struct with a 16-bit
count, a dynamically counted byte array, and a fully covering 8-bit
bitfield. -/
def c1demo : Codec :=
  .cstruct [("n", .cprim (.pint 2 false)),
            ("items", .carrayPath ["n"] (.cprim (.pint 1 false))),
            ("bf", .cbitfield 8 [("a", 0), ("b", 4)])]

/-- The value `c1demo` decodes from `02 00 07 09 3A`. -/
def c1demoVal : Value :=
  .vmap true [("n", .vint 2), ("items", .vlist [.vint 7, .vint 9]),
              ("bf", .vmap false [("a", .vint 10), ("b", .vint 3)])]

/-- Witness for `c1_lossless_roundtrip`: decoding `02 00 07 09 3A` with
`c1demo` and re-encoding returns the original bytes. -/
theorem c1_lossless_roundtrip_witness :
    decodeD 10 c1demo [] [2, 0, 7, 9, 58] = some (c1demoVal, []) ∧
    encodeD 10 c1demo [] c1demoVal = some [2, 0, 7, 9, 58] := by
  constructor
  · rfl
  · obtain ⟨out, henc, heq, himp⟩ :=
      c1_lossless_roundtrip 10 c1demo [2, 0, 7, 9, 58] c1demoVal []
        (by decide) (by decide) rfl
    exact himp rfl
